import Mathlib

/-!
# Verification development for the data-flow search engine

Shallow embedding of `enhanced_search.py` (class `EnhancedSearch`) and the
parts of `main.py` that shape its input.  Python strings are modelled as
`List Char`; Python dicts as association lists with the source's
insert/append semantics; Python floats as exact rationals `ℚ`;
`str.lower` and the regex classes `\w`, `\s` are modelled on the ASCII
range used by the catalog data and queries.  Python `set` values whose
iteration order is implementation defined are modelled canonically as
duplicate-free lists in first-insertion order; no theorem below depends
on that order beyond membership.  `rapidfuzz.fuzz.ratio` is the
normalized Indel similarity `200 * lcs(a,b) / (|a| + |b|)`.
Python's `sorted` (Timsort) is stable; any two stable sorts by the same
key are extensionally equal, so it is embedded as a stable insertion
sort by descending key.
-/

namespace DFS

open scoped List

abbrev Str := List Char

/-- Model of Python `str.lower` on the ASCII range. -/
def pyLower (c : Char) : Char :=
  if 65 ≤ c.toNat ∧ c.toNat ≤ 90 then Char.ofNat (c.toNat + 32) else c

def lowerStr (s : Str) : Str := s.map pyLower

/-- Model of the regex class `\w` (ASCII fragment). -/
def isWordCh (c : Char) : Bool := c.isAlphanum || c == '_'

/-- Model of the regex class `\s` / Python `str.split()` whitespace (ASCII). -/
def isSpaceCh (c : Char) : Bool :=
  c == ' ' || c == '\t' || c == '\n' || c == '\r' || c == '\x0b' || c == '\x0c'

/-- Python `needle in hay` (contiguous substring test). -/
def strHasSub (needle : Str) : Str → Bool
  | [] => needle.isPrefixOf []
  | c :: cs => needle.isPrefixOf (c :: cs) || strHasSub needle cs

/-- Python `str.split()` (split on whitespace runs, dropping empty parts). -/
def splitWs : Str → List Str
  | [] => []
  | c :: cs =>
    if isSpaceCh c then splitWs cs
    else
      match cs, splitWs cs with
      | [], _ => [[c]]
      | d :: _, r =>
        if isSpaceCh d then [c] :: r
        else
          match r with
          | [] => [[c]]
          | t :: ts => (c :: t) :: ts

/-- Python `str.split(sep)` for a single-character separator (keeps empty parts). -/
def splitChAux (sep : Char) (acc : Str) : Str → List Str
  | [] => [acc.reverse]
  | c :: cs => if c = sep then acc.reverse :: splitChAux sep [] cs else splitChAux sep (c :: acc) cs

def splitCh (sep : Char) (s : Str) : List Str := splitChAux sep [] s

/-- Python `str.strip()`. -/
def pyStrip (s : Str) : Str :=
  ((s.dropWhile isSpaceCh).reverse.dropWhile isSpaceCh).reverse

/-- Python `' '.join` / `sep.join`. -/
def joinStr (sep : Str) : List Str → Str
  | [] => []
  | [x] => x
  | x :: xs => x ++ sep ++ joinStr sep xs

/-- Canonical model of a Python `set` collected from a list:
duplicate-free, first-insertion order. -/
def dedupAux (seen : List Str) : List Str → List Str
  | [] => []
  | x :: xs => if x ∈ seen then dedupAux seen xs else x :: dedupAux (x :: seen) xs

def dedupKeepFirst (l : List Str) : List Str := dedupAux [] l

/-- Association-list lookup (Python `dict[k]` / `dict.get(k)`). -/
def alookup {β : Type} (m : List (Str × β)) (k : Str) : Option β :=
  match m with
  | [] => none
  | (k', v) :: rest => if k' = k then some v else alookup rest k

/-- Python `dict[k] = v`: replace in place if the key exists, else append
(dict insertion order). -/
def dictUpsert {β : Type} (m : List (Str × β)) (k : Str) (v : β) : List (Str × β) :=
  match m with
  | [] => [(k, v)]
  | (k', v') :: rest => if k' = k then (k, v) :: rest else (k', v') :: dictUpsert rest k v

/-- The idiom `if k not in d: d[k] = []` followed by `d[k].append v`. -/
def multiAdd (m : List (Str × List Str)) (k : Str) (v : Str) : List (Str × List Str) :=
  match m with
  | [] => [(k, [v])]
  | (k', vs) :: rest =>
    if k' = k then (k, vs ++ [v]) :: rest else (k', vs) :: multiAdd rest k v

/-- The stop-word list of `EnhancedSearch._tokenize`. -/
def stopwords : List Str :=
  ["der".data, "die".data, "das".data, "ein".data, "eine".data, "und".data,
   "oder".data, "für".data, "fuer".data, "mit".data, "bei".data, "von".data,
   "zu".data]

/-- `EnhancedSearch._tokenize`: lower-case, hyphens to spaces, drop all
characters that are neither word nor space, split on whitespace, drop
tokens of length ≤ 2 and stop-words.  Absent (`None`) input is modelled
as the empty string, which Python's falsiness test treats identically. -/
def tokenize (text : Str) : List Str :=
  if text = [] then []
  else
    let t1 := lowerStr text
    let t2 := t1.map (fun c => if c = '-' then ' ' else c)
    let t3 := t2.filter (fun c => isWordCh c || isSpaceCh c)
    let toks := splitWs t3
    toks.filter (fun t => decide (2 < t.length) && !(decide (t ∈ stopwords)))

/-- One process step of a flow (`main.py` builds `{"step_type", "interface"}`
dicts; a missing XML element is modelled as the empty string). -/
structure ProcessStep where
  step_type : Str
  interface : Str
deriving DecidableEq, Repr

/-- One data-flow record as built by `main.py::parse_xml_file`.  All string
fields are always present; "absent" means the empty string, which every
truthiness test in the source treats as missing.  `search_score` models the
key that `EnhancedSearch.search` writes into the record dicts in place;
records fresh from the catalog have `none`. -/
structure Flow where
  id : Str
  name : Str
  description : Str
  transmission_method : Str
  format : Str
  trigger : Str
  source_system : Str
  target_system : Str
  process_steps : List ProcessStep
  search_score : Option ℚ := none
deriving DecidableEq, Repr, Inhabited

/-- The `data_store` dict handed to `EnhancedSearch.__init__`.  The four
vocabulary sets are Python sets, modelled canonically as lists. -/
structure DataStore where
  data_flows : List Flow
  systems : List Str
  formats : List Str
  transmission_methods : List Str
  interfaces : List Str

/-- All searcher state built by `EnhancedSearch.__init__`: the copied key-term
lists, the flow dict, the six inverted indices and the three variant tables. -/
structure SearchState where
  systems : List Str
  formats : List Str
  transmission_methods : List Str
  interfaces : List Str
  flow_index : List (Str × Flow)
  name_index : List (Str × List Str)
  description_index : List (Str × List Str)
  system_index : List (Str × List Str)
  format_index : List (Str × List Str)
  transmission_index : List (Str × List Str)
  interface_index : List (Str × List Str)
  system_variants : List (Str × List Str)
  format_variants : List (Str × List Str)
  transmission_variants : List (Str × List Str)
deriving DecidableEq, Repr

/-- Indexing of one flow inside the loop of
`EnhancedSearch.create_search_indices` (updates the seven dict fields). -/
def indexFlow (st : SearchState) (flow : Flow) : SearchState :=
  let nameIx :=
    if flow.name ≠ [] then
      (tokenize flow.name).foldl (fun ix tok => multiAdd ix tok flow.id) st.name_index
    else st.name_index
  let descIx :=
    if flow.description ≠ [] then
      (tokenize flow.description).foldl (fun ix tok => multiAdd ix tok flow.id) st.description_index
    else st.description_index
  let sysIx1 :=
    if flow.source_system ≠ [] then
      multiAdd st.system_index flow.source_system flow.id
    else st.system_index
  let sysIx2 :=
    if flow.target_system ≠ [] then multiAdd sysIx1 flow.target_system flow.id else sysIx1
  let fmtIx :=
    if flow.format ≠ [] then multiAdd st.format_index flow.format flow.id
    else st.format_index
  let transIx :=
    if flow.transmission_method ≠ [] then
      (splitCh ';' flow.transmission_method).foldl
        (fun ix part =>
          if pyStrip part ≠ [] then multiAdd ix (pyStrip part) flow.id else ix)
        st.transmission_index
    else st.transmission_index
  let ifaceIx :=
    flow.process_steps.foldl
      (fun ix step =>
        if step.interface ≠ [] then multiAdd ix step.interface flow.id else ix)
      st.interface_index
  { st with
    flow_index := dictUpsert st.flow_index flow.id flow
    name_index := nameIx
    description_index := descIx
    system_index := sysIx2
    format_index := fmtIx
    transmission_index := transIx
    interface_index := ifaceIx }

/-- `EnhancedSearch.prepare_synonym_mapping`: system variants, generated by
case-sensitive substring triggers on the system name (independent `if`s). -/
def systemVariantsOf (system : Str) : List Str :=
  (if strHasSub "MIRA".data system then ["mira".data, "mirasystem".data] else [])
  ++ (if strHasSub "GAS-X".data system then ["gasx".data, "gas-x".data, "gas x".data] else [])
  ++ (if strHasSub "GRID".data system then ["grid".data, "netzseite".data] else [])
  ++ (if strHasSub "BKN".data system then ["bkn".data, "bilanzkreis".data, "bilanzierung".data] else [])
  ++ (if strHasSub "Marktpartner".data system then
        ["marktpartner".data, "shipper".data, "transportkunde".data, "lieferant".data] else [])
  ++ (if strHasSub "VHP".data system then ["vhp".data, "portal".data, "web".data, "webportal".data] else [])

/-- Format variants (`if/elif` chain on equality). -/
def formatVariantsOf (f : Str) : List Str :=
  if f = "NOMINT".data then ["nominierung".data, "nomination".data, "nomint".data]
  else if f = "NOMRES".data then
    ["nominierungsantwort".data, "confirmation".data, "bestätigung".data, "bestaetigung".data]
  else if f = "CONTRL".data then ["kontrolle".data, "kontrollmeldung".data, "control".data]
  else if f = "APERAK".data then ["fehler".data, "fehlermeldung".data, "error".data]
  else if f = "ACKNOW".data then
    ["quittung".data, "bestätigung".data, "bestaetigung".data, "acknowledgement".data]
  else if f = "ALOCAT".data then ["allokation".data, "allocation".data, "zuteilung".data]
  else []

/-- Transmission-method variants (`if/elif` chain on equality). -/
def transmissionVariantsOf (m : Str) : List Str :=
  if m = "AS4".data then ["as4".data, "as 4".data, "bsi".data]
  else if m = "AS2".data then ["as2".data, "as 2".data]
  else if m = "SMTP".data then ["smtp".data, "email".data, "e-mail".data, "mail".data]
  else if m = "Webservice".data then
    ["webservice".data, "web service".data, "web".data, "rest".data, "api".data]
  else []

/-- `EnhancedSearch.__init__`: copy the key-term lists
(`extract_key_terms`), build the indices (`create_search_indices`) and the
variant tables (`prepare_synonym_mapping`). -/
def initSearch (ds : DataStore) : SearchState :=
  let st0 : SearchState :=
    { systems := ds.systems
      formats := ds.formats
      transmission_methods := ds.transmission_methods
      interfaces := ds.interfaces
      flow_index := [], name_index := [], description_index := []
      system_index := [], format_index := [], transmission_index := []
      interface_index := [], system_variants := [], format_variants := []
      transmission_variants := [] }
  let st1 := ds.data_flows.foldl indexFlow st0
  { st1 with
    system_variants := ds.systems.map (fun s => (s, systemVariantsOf s))
    format_variants := ds.formats.map (fun f => (f, formatVariantsOf f))
    transmission_variants := ds.transmission_methods.map (fun m => (m, transmissionVariantsOf m)) }


/-- Recognized query direction (`entities["direction"]`). -/
inductive Direction where
  | dFrom
  | dTo
  | dBetween
deriving DecidableEq, Repr

/-- `entities` dict of `EnhancedSearch._extract_entities`. -/
structure QueryEntities where
  systems : List Str
  formats : List Str
  transmission_methods : List Str
  interfaces : List Str
  unknown_terms : List Str
  direction : Option Direction
deriving DecidableEq, Repr

/-- One matching step of the system loop in `_extract_entities`: token
intersection with the query token set first, else the first variant that is a
substring of the query.  The accumulator is `(matched entities, matched
tokens)`; `matched_tokens` is a Python set, modelled with duplicates kept
(only membership is ever used). -/
def entityFold (variants : List (Str × List Str)) (tokensOf : Str → List Str)
    (querySet : List Str) (q : Str) (useTokens : Bool)
    (acc : List Str × List Str) (cand : Str) : List Str × List Str :=
  if useTokens ∧ tokensOf cand ≠ [] ∧ (tokensOf cand).any (fun t => decide (t ∈ querySet)) then
    (acc.1 ++ [cand], acc.2 ++ tokensOf cand)
  else
    match ((alookup variants cand).getD []).find? (fun v => strHasSub v q) with
    | some v => (acc.1 ++ [cand], acc.2 ++ splitWs v)
    | none => acc

/-- One step of the format loop in `_extract_entities`: substring of the raw
query first (formats are short codes), else the first matching variant. -/
def fmtStep (st : SearchState) (q : Str) (acc : List Str × List Str) (f : Str) :
    List Str × List Str :=
  if strHasSub (lowerStr f) q then (acc.1 ++ [f], acc.2 ++ splitWs (lowerStr f))
  else
    match ((alookup st.format_variants f).getD []).find? (fun v => strHasSub v q) with
    | some v => (acc.1 ++ [f], acc.2 ++ splitWs v)
    | none => acc

/-- One step of the transmission-method loop in `_extract_entities`. -/
def tmStep (st : SearchState) (q : Str) (acc : List Str × List Str) (m : Str) :
    List Str × List Str :=
  if strHasSub (lowerStr m) q then (acc.1 ++ [m], acc.2 ++ splitWs (lowerStr m))
  else
    match ((alookup st.transmission_variants m).getD []).find? (fun v => strHasSub v q) with
    | some v => (acc.1 ++ [m], acc.2 ++ splitWs v)
    | none => acc

/-- One step of the interface loop in `_extract_entities` (exact substring
only, no synonyms). -/
def ifcStep (q : Str) (acc : List Str × List Str) (i : Str) : List Str × List Str :=
  if strHasSub (lowerStr i) q then (acc.1 ++ [i], acc.2 ++ splitWs (lowerStr i)) else acc

/-- The direction detection of `_extract_entities` (fixed priority
from > to > between, keyword substring tests on the lowercase query). -/
def directionOf (q : Str) : Option Direction :=
  if strHasSub "von".data q || strHasSub "from".data q then some .dFrom
  else if strHasSub "zu".data q || strHasSub "nach".data q || strHasSub "to".data q then
    some .dTo
  else if strHasSub "zwischen".data q || strHasSub "between".data q then some .dBetween
  else none

/-- `EnhancedSearch._extract_entities`.  The `query_tokens` set and the final
set difference are modelled as duplicate-free lists in first-occurrence
order. -/
def extract_entities (st : SearchState) (query : Str) : QueryEntities :=
  let q := lowerStr query
  let querySet := dedupKeepFirst (tokenize query)
  let sys := st.systems.foldl (entityFold st.system_variants tokenize querySet q true) ([], [])
  let fmt := st.formats.foldl (fmtStep st q) ([], sys.2)
  let tm := st.transmission_methods.foldl (tmStep st q) ([], fmt.2)
  let ifc := st.interfaces.foldl (ifcStep q) ([], tm.2)
  { systems := sys.1
    formats := fmt.1
    transmission_methods := tm.1
    interfaces := ifc.1
    unknown_terms := querySet.filter (fun t => decide (t ∉ ifc.2))
    direction := directionOf q }

/-- Per-query score dict `flow_scores`.  Its key set is exactly the keys of
`flow_index` and every update targets an existing key, so it is modelled as a
total function that is `0` away from those keys. -/
abbrev ScoreMap := Str → ℚ

def bump (m : ScoreMap) (k : Str) (w : ℚ) : ScoreMap :=
  fun i => if i = k then m i + w else m i

/-- A sequence of `flow_scores[fid] += w` updates. -/
def bumpMany (m : ScoreMap) (l : List (Str × ℚ)) : ScoreMap :=
  l.foldl (fun m p => bump m p.1 p.2) m

/-- Weight added for one entry of `system_index[system]` in
`_search_with_entities` (lines 377-387 of the source, conditions in order). -/
def sysWeight (dir : Option Direction) (system : Str) (flow : Flow) : ℚ :=
  if flow.source_system = system ∧ flow.target_system = system then 3.0
  else if dir = some .dFrom ∧ flow.source_system = system then 2.0
  else if dir = some .dTo ∧ flow.target_system = system then 2.0
  else if dir = some .dBetween then 1.0
  else 1.0

/-- The `+=` updates issued by `EnhancedSearch._search_with_entities`, in
program order.  A key missing from an index contributes nothing (`if x in
index`); `flow_index[flow_id]` is always present for constructed states, the
unreachable `none` branch contributes nothing. -/
def entity_contribs (st : SearchState) (ents : QueryEntities) : List (Str × ℚ) :=
  (ents.systems.flatMap fun system =>
    ((alookup st.system_index system).getD []).flatMap fun fid =>
      match alookup st.flow_index fid with
      | none => []
      | some flow => [(fid, sysWeight ents.direction system flow)])
  ++ (ents.formats.flatMap fun f =>
    ((alookup st.format_index f).getD []).map fun fid => (fid, (2.0 : ℚ)))
  ++ (ents.transmission_methods.flatMap fun m =>
    ((alookup st.transmission_index m).getD []).map fun fid => (fid, (1.5 : ℚ)))
  ++ (ents.interfaces.flatMap fun i =>
    ((alookup st.interface_index i).getD []).map fun fid => (fid, (2.5 : ℚ)))

def search_with_entities (st : SearchState) (ents : QueryEntities) (m : ScoreMap) : ScoreMap :=
  bumpMany m (entity_contribs st ents)


/-- One row of the longest-common-subsequence DP.  `prev` is the previous row
(length `|b| + 1`); `cur` is the value just computed to the left. -/
def lcsRowAux (c : Char) : Str → List Nat → Nat → List Nat
  | [], _, _ => []
  | _ :: _, [], _ => []
  | b :: bs, p0 :: ps, cur =>
    let pj := match ps with | [] => 0 | q :: _ => q
    let v := if c = b then p0 + 1 else max cur pj
    v :: lcsRowAux c bs ps v

def lcsRow (c : Char) (b : Str) (prev : List Nat) : List Nat :=
  0 :: lcsRowAux c b prev 0

/-- Length of the longest common subsequence of two strings. -/
def lcsLen (a b : Str) : Nat :=
  (a.foldl (fun prev c => lcsRow c b prev) (List.replicate (b.length + 1) 0)).getLast?.getD 0

/-- `rapidfuzz.fuzz.ratio`: the normalized Indel similarity in `[0, 100]`,
`100 * (1 - indel(a,b)/(|a|+|b|)) = 200 * lcs(a,b) / (|a|+|b|)`
(`100.0` when both strings are empty). -/
def fuzzSim (a b : Str) : ℚ :=
  if a.length + b.length = 0 then 100
  else (200 * (lcsLen a b : ℚ)) / ((a.length : ℚ) + (b.length : ℚ))

/-- Stable insertion into a list sorted by non-increasing key: `x` goes in
front of the first element whose key is `≤ key x`, so earlier input elements
stay in front of equal-key later ones. -/
def insertDesc {α : Type} (key : α → ℚ) (x : α) : List α → List α
  | [] => [x]
  | y :: ys => if key y ≤ key x then x :: y :: ys else y :: insertDesc key x ys

/-- Stable sort by non-increasing key.  Embeds Python's stable
`sorted(..., key=..., reverse=True)` (and `rapidfuzz`'s score-descending,
index-ascending candidate ordering): stable sorts by one key are
extensionally equal, so the choice of algorithm is immaterial. -/
def sortDesc {α : Type} (key : α → ℚ) (l : List α) : List α :=
  l.foldr (insertDesc key) []

/-- `rapidfuzz.process.extract(term, choices, scorer=fuzz.ratio, limit)`:
score every choice, order by descending score (ties by choice order), keep
the first `limit`. -/
def extractTop (term : Str) (choices : List Str) (limit : Nat) : List (Str × ℚ) :=
  (sortDesc (fun p => p.2) (choices.map (fun c => (c, fuzzSim term c)))).take limit

/-- The `all_terms` / `term_to_flow_map` pair of `_fuzzy_term_matching`:
vocabulary keys in first-occurrence order; the flow id list of a token gets
one entry per occurrence of the token in a flow name (not per flow). -/
def buildVocab (fi : List (Str × Flow)) : List (Str × List Str) :=
  fi.foldl
    (fun vocab p =>
      if p.2.name ≠ [] then
        (tokenize p.2.name).foldl (fun v tok => multiAdd v tok p.1) vocab
      else vocab)
    []

/-- The `+=` updates issued by `EnhancedSearch._fuzzy_term_matching`: for
each unknown term of length ≥ 3, the best 5 vocabulary candidates; every
candidate with similarity ≥ 80 adds `similarity / 100` once per entry of
`term_to_flow_map[candidate]`. -/
def fuzzy_contribs (st : SearchState) (terms : List Str) : List (Str × ℚ) :=
  if terms = [] then []
  else
    let vocab := buildVocab st.flow_index
    terms.flatMap fun term =>
      if term.length < 3 then []
      else
        (extractTop term (vocab.map (fun p => p.1)) 5).flatMap fun ms =>
          if 80 ≤ ms.2 then
            ((alookup vocab ms.1).getD []).map fun fid => (fid, ms.2 / 100)
          else []

def fuzzy_term_matching (st : SearchState) (terms : List Str) (m : ScoreMap) : ScoreMap :=
  bumpMany m (fuzzy_contribs st terms)

/-- The `+=` updates issued by `EnhancedSearch._fulltext_search`: `+1.0` per
name-index entry of a query token, then `+0.7` per description-index
entry. -/
def fulltext_contribs (st : SearchState) (query_tokens : List Str) : List (Str × ℚ) :=
  (query_tokens.flatMap fun tok =>
    ((alookup st.name_index tok).getD []).map fun fid => (fid, (1.0 : ℚ)))
  ++ (query_tokens.flatMap fun tok =>
    ((alookup st.description_index tok).getD []).map fun fid => (fid, (0.7 : ℚ)))

def fulltext_search (st : SearchState) (query_tokens : List Str) (m : ScoreMap) : ScoreMap :=
  bumpMany m (fulltext_contribs st query_tokens)


/-- `EnhancedSearch._find_best_system_match`: first system (in catalog
order) related by case-insensitive substring in either direction; otherwise
the single best fuzzy candidate (`process.extract(term, systems, limit=1)`,
case-sensitive) if its similarity is ≥ 75. -/
def find_best_system_match (st : SearchState) (term : Str) : Option Str :=
  if term = [] then none
  else
    match st.systems.find?
        (fun s => strHasSub (lowerStr term) (lowerStr s) || strHasSub (lowerStr s) (lowerStr term)) with
    | some s => some s
    | none =>
      match extractTop term st.systems 1 with
      | [] => none
      | best :: _ => if 75 ≤ best.2 then some best.1 else none

/-- Tail of the direction regexes: `kw2\s+(\w+)` at the head of `s`
(greedy `\s+` and `(\w+)` do not interact; the final capture is the maximal
word-character run). -/
def tailMatch (kw2 : Str) (s : Str) : Option Str :=
  if kw2.isPrefixOf s then
    let r := s.drop kw2.length
    let ws := r.takeWhile isSpaceCh
    if ws = [] then none
    else
      let w := (r.drop ws.length).takeWhile isWordCh
      if w = [] then none else some w
  else none

/-- How far the middle `[\s\w]*` of the direction regexes can reach from the
start of `m`. -/
def midLimit (m : Str) : Nat := (m.takeWhile (fun c => isSpaceCh c || isWordCh c)).length

/-- Greedy backtracking of the middle `[\s\w]*` (or `[\s\w]+` when
`lo = 1`): try consuming `k` characters, then `k - 1`, ... down to `lo`. -/
def tryMidDown (kw2 : Str) (m : Str) (lo : Nat) : Nat → Option Str
  | 0 => if lo = 0 then tailMatch kw2 m else none
  | k + 1 =>
    match tailMatch kw2 (m.drop (k + 1)) with
    | some c2 => some c2
    | none => tryMidDown kw2 m lo k

/-- Greedy backtracking of the first capture `(\w+)`: `w` is the maximal
word run at the head of `r2`; try capture lengths `|w|, ..., 1`. -/
def tryCap1Down (kw2 : Str) (w r2 : Str) (lo : Nat) : Nat → Option (Str × Str)
  | 0 => none
  | len + 1 =>
    let m := r2.drop (len + 1)
    match tryMidDown kw2 m lo (midLimit m) with
    | some c2 => some (w.take (len + 1), c2)
    | none => tryCap1Down kw2 w r2 lo len

/-- Match `kw1\s+(\w+)[\s\w]*kw2\s+(\w+)` (or `[\s\w]+` for `lo = 1`)
anchored at the start of `q`, with Python's backtracking priorities. -/
def dirMatchAt (kw1 kw2 : Str) (lo : Nat) (q : Str) : Option (Str × Str) :=
  if kw1.isPrefixOf q then
    let rest := q.drop kw1.length
    let ws := rest.takeWhile isSpaceCh
    if ws = [] then none
    else
      let r2 := rest.drop ws.length
      let w := r2.takeWhile isWordCh
      if w = [] then none else tryCap1Down kw2 w r2 lo w.length
  else none

/-- `re.search` for one direction template: leftmost starting position wins,
and the pattern begins with the literal `kw1` (no word boundary). -/
def dirSearch (kw1 kw2 : Str) (lo : Nat) : Str → Option (Str × Str)
  | [] => dirMatchAt kw1 kw2 lo []
  | c :: cs =>
    match dirMatchAt kw1 kw2 lo (c :: cs) with
    | some r => some r
    | none => dirSearch kw1 kw2 lo cs

/-- Score updates of one matched `from_to` template: `+5.0` to every
`flow_index` entry with the resolved source and target, provided both
captures resolve to truthy (non-empty) systems. -/
def fromToContribs (st : SearchState) (r : Option (Str × Str)) : List (Str × ℚ) :=
  match r with
  | none => []
  | some caps =>
    match find_best_system_match st caps.1, find_best_system_match st caps.2 with
    | some s1, some s2 =>
      if s1 ≠ [] ∧ s2 ≠ [] then
        st.flow_index.filterMap fun p =>
          if p.2.source_system = s1 ∧ p.2.target_system = s2 then some (p.1, (5.0 : ℚ)) else none
      else []
    | _, _ => []

/-- Score updates of one matched `between` template: `+5.0` for either
orientation of the resolved pair. -/
def betweenContribs (st : SearchState) (r : Option (Str × Str)) : List (Str × ℚ) :=
  match r with
  | none => []
  | some caps =>
    match find_best_system_match st caps.1, find_best_system_match st caps.2 with
    | some s1, some s2 =>
      if s1 ≠ [] ∧ s2 ≠ [] then
        st.flow_index.filterMap fun p =>
          if (p.2.source_system = s1 ∧ p.2.target_system = s2)
              ∨ (p.2.source_system = s2 ∧ p.2.target_system = s1) then
            some (p.1, (5.0 : ℚ))
          else none
      else []
    | _, _ => []

/-- The `+=` updates issued by `EnhancedSearch._pattern_based_search`.  The
source iterates over all four templates with no `break`, so every matching
template contributes. -/
def pattern_contribs (st : SearchState) (query : Str) : List (Str × ℚ) :=
  let q := lowerStr query
  fromToContribs st (dirSearch "von".data "nach".data 0 q)
  ++ fromToContribs st (dirSearch "from".data "to".data 0 q)
  ++ betweenContribs st (dirSearch "zwischen".data "und".data 1 q)
  ++ betweenContribs st (dirSearch "between".data "and".data 1 q)

def pattern_based_search (st : SearchState) (query : Str) (m : ScoreMap) : ScoreMap :=
  bumpMany m (pattern_contribs st query)

/-- Python 3 `round(x, 2)` on exact values: round half to even at the second
decimal place. -/
def rndHalfEven (x : ℚ) : ℤ :=
  let f := ⌊x⌋
  if x - f < 1 / 2 then f
  else if (1 : ℚ) / 2 < x - f then f + 1
  else if 2 ∣ f then f else f + 1

def roundTo2 (x : ℚ) : ℚ := (rndHalfEven (100 * x) : ℚ) / 100


/-- The single-quote character (used by the response f-strings). -/
def sq : Char := Char.ofNat 39

def natStr (n : Nat) : Str := (Nat.repr n).data

/-- `EnhancedSearch._generate_response`.  `systems_in_results` is a Python
set, modelled canonically in first-insertion order. -/
def generate_response (q : Str) (direct related : List Flow) (ents : QueryEntities) : Str :=
  if direct = [] ∧ related = [] then
    "Ich konnte keine Datenflüsse finden, die zu Ihrer Anfrage ".data
      ++ [sq] ++ q ++ [sq] ++ " passen.".data
  else
    let entity_mention : List Str :=
      (if ents.systems ≠ [] then
        [if ents.systems.length = 1
         then "das System ".data ++ ents.systems.headI
         else "die Systeme ".data ++ joinStr ", ".data ents.systems]
       else [])
      ++ (if ents.formats ≠ [] then
        [if ents.formats.length = 1
         then "das Format ".data ++ ents.formats.headI
         else "die Formate ".data ++ joinStr ", ".data ents.formats]
       else [])
      ++ (if ents.transmission_methods ≠ [] then
        [if ents.transmission_methods.length = 1
         then "die Übertragungsmethode ".data ++ ents.transmission_methods.headI
         else "die Übertragungsmethoden ".data ++ joinStr ", ".data ents.transmission_methods]
       else [])
      ++ (if ents.interfaces ≠ [] then
        [if ents.interfaces.length = 1
         then "die Schnittstelle ".data ++ ents.interfaces.headI
         else "die Schnittstellen ".data ++ joinStr ", ".data ents.interfaces]
       else [])
    let intro :=
      if entity_mention ≠ [] then
        "Für Ihre Anfrage zu ".data ++ joinStr " und ".data entity_mention ++ " habe ich ".data
      else
        "Für Ihre Anfrage ".data ++ [sq] ++ q ++ [sq] ++ " habe ich ".data
    let mid :=
      if direct ≠ [] then
        if direct.length = 1 then
          let flow := direct.headI
          let details : List Str :=
            (if flow.source_system ≠ [] ∧ flow.target_system ≠ [] then
              ["von ".data ++ flow.source_system ++ " nach ".data ++ flow.target_system]
             else [])
            ++ (if flow.format ≠ [] then ["im Format ".data ++ flow.format] else [])
            ++ (if flow.transmission_method ≠ [] then
                 ["über ".data ++ flow.transmission_method] else [])
          "einen passenden Datenfluss gefunden: ".data ++ [sq] ++ flow.name ++ [sq]
            ++ (if details ≠ [] then
                 " (".data ++ joinStr ", ".data details ++ ")".data else [])
        else
          let sysr := dedupKeepFirst (direct.flatMap fun fl =>
            (if fl.source_system ≠ [] then [fl.source_system] else [])
            ++ (if fl.target_system ≠ [] then [fl.target_system] else []))
          natStr direct.length ++ " passende Datenflüsse gefunden".data
            ++ (if sysr ≠ [] ∧ sysr.length ≤ 5 then
                 ", beteiligt sind die Systeme ".data ++ joinStr ", ".data sysr else [])
      else "keine direkt passenden Datenflüsse gefunden".data
    let closing :=
      if related ≠ [] then
        ". Zusätzlich gibt es ".data ++ natStr related.length
          ++ " verwandte Datenflüsse, die mit ähnlichen Systemen verbunden sind".data
      else ".".data
    intro ++ mid ++ closing

/-- The dict returned by `EnhancedSearch.search`. -/
structure SearchResult where
  direct_results : List Flow
  related_flows : List Flow
  matching_systems : List Str
  query_entities : QueryEntities
  natural_response : Str
deriving DecidableEq, Repr

/-- `query_entities` after the unknown-terms substitution of `search`
(lines 207-208): when the residual is empty it is replaced by the full
(ordered, possibly duplicated) query token list. -/
def entsAfterSub (st : SearchState) (queryLower : Str) : QueryEntities :=
  let ents0 := extract_entities st queryLower
  if ents0.unknown_terms = [] then { ents0 with unknown_terms := tokenize queryLower }
  else ents0

/-- The final `flow_scores` after the four passes of `search`, as a function
of the already-lowercased query. -/
def finalScores (st : SearchState) (queryLower : Str) : ScoreMap :=
  let m1 := search_with_entities st (extract_entities st queryLower) (fun _ => 0)
  let m2 := fuzzy_term_matching st (entsAfterSub st queryLower).unknown_terms m1
  let m3 := fulltext_search st (tokenize queryLower) m2
  pattern_based_search st queryLower m3

/-- `flow_scores.items()` in dict (= catalog) order, filtered to positive
scores (line 219). -/
def scoredList (st : SearchState) (queryLower : Str) : List (Str × ℚ) :=
  (st.flow_index.map fun p => (p.1, finalScores st queryLower p.1)).filter
    (fun p => decide (0 < p.2))

/-- `sorted(..., key=score, reverse=True)` (stable). -/
def rankedList (st : SearchState) (queryLower : Str) : List (Str × ℚ) :=
  sortDesc (fun p => p.2) (scoredList st queryLower)

/-- The flow object appended to `direct_results` for one ranked entry:
`flow_index[fid]` with `search_score = round(score, 2)` written into it. -/
def annotFlow (st : SearchState) (p : Str × ℚ) : Option Flow :=
  (alookup st.flow_index p.1).map fun fl => { fl with search_score := some (roundTo2 p.2) }

/-- `sorted_results[:max_results]` (line 227). -/
def topOf (st : SearchState) (queryLower : Str) (max_results : Nat) : List (Str × ℚ) :=
  (rankedList st queryLower).take max_results

/-- The `direct_results` list (lines 225-230). -/
def directOf (st : SearchState) (queryLower : Str) (max_results : Nat) : List Flow :=
  (topOf st queryLower max_results).filterMap (annotFlow st)

/-- `flow_index` after the in-place `flow["search_score"] = round(score, 2)`
mutations performed while building the direct results (line 229). -/
def newFlowIndex (st : SearchState) (queryLower : Str) (max_results : Nat) :
    List (Str × Flow) :=
  (topOf st queryLower max_results).foldl
    (fun fi p =>
      fi.map fun e =>
        if e.1 = p.1 then (e.1, { e.2 with search_score := some (roundTo2 p.2) }) else e)
    st.flow_index

/-- The `matching_systems` set (lines 226, 232-236), collected in direct-result
order: source first, then target, truthy values only. -/
def matchingSystemsOf (direct : List Flow) : List Str :=
  dedupKeepFirst (direct.flatMap fun fl =>
    (if fl.source_system ≠ [] then [fl.source_system] else [])
    ++ (if fl.target_system ≠ [] then [fl.target_system] else []))

/-- The full `related_flows` list before truncation (lines 239-246): iterate
the (mutated) flow dict in catalog order, skip direct results (`in` is dict
equality), keep flows whose truthy source or target system is among the
matching systems. -/
def relatedAllOf (st : SearchState) (queryLower : Str) (max_results : Nat) : List Flow :=
  let direct := directOf st queryLower max_results
  let matching_systems := matchingSystemsOf direct
  ((newFlowIndex st queryLower max_results).map fun p => p.2).filter fun fl =>
    decide (fl ∉ direct) &&
      (decide (fl.source_system ≠ [] ∧ fl.source_system ∈ matching_systems)
       || decide (fl.target_system ≠ [] ∧ fl.target_system ∈ matching_systems))

/-- `EnhancedSearch.search`.  Because the score annotation mutates the flow
dicts stored in `flow_index` in place, the searcher state after the call is
returned alongside the result dict. -/
def search (st : SearchState) (query : Str) (max_results : Nat := 20) :
    SearchState × SearchResult :=
  let q := lowerStr query
  let ents := entsAfterSub st q
  let direct := directOf st q max_results
  let related_all := relatedAllOf st q max_results
  let natural_response := generate_response q direct related_all ents
  ({ st with flow_index := newFlowIndex st q max_results },
   { direct_results := direct
     related_flows := related_all.take 10
     matching_systems := matchingSystemsOf direct
     query_entities := ents
     natural_response := natural_response })


/-- Sum of the update weights a contribution list carries for one flow id. -/
def contribSum (l : List (Str × ℚ)) (k : Str) : ℚ :=
  (l.map fun p => if p.1 = k then p.2 else 0).sum

/-- A flow with its in-place score annotation erased. -/
def clearScore (fl : Flow) : Flow := { fl with search_score := none }

/-- Modelled from the spec (the claimed reading of §4.5 item 4): the four
direction templates are tested in priority order and ONLY the first template
whose regex matches is applied.  The implementation has no `break`; this
definition exists solely to compare the claimed behavior against
`pattern_contribs`. -/
def pattern_contribs_first_only (st : SearchState) (query : Str) : List (Str × ℚ) :=
  let q := lowerStr query
  match dirSearch "von".data "nach".data 0 q with
  | some r => fromToContribs st (some r)
  | none =>
    match dirSearch "from".data "to".data 0 q with
    | some r => fromToContribs st (some r)
    | none =>
      match dirSearch "zwischen".data "und".data 1 q with
      | some r => betweenContribs st (some r)
      | none => betweenContribs st (dirSearch "between".data "and".data 1 q)

/-- How many `flow_index` entries with key `fid` a matched `from_to`
template targets: entries whose flow has the resolved source and target
(0 unless both captures resolve to truthy systems). -/
def fromToCount (st : SearchState) (r : Option (Str × Str)) (fid : Str) : Nat :=
  match r with
  | none => 0
  | some caps =>
    match find_best_system_match st caps.1, find_best_system_match st caps.2 with
    | some s1, some s2 =>
      if s1 ≠ [] ∧ s2 ≠ [] then
        (st.flow_index.filter fun p =>
          decide (p.2.source_system = s1 ∧ p.2.target_system = s2) && decide (p.1 = fid)).length
      else 0
    | _, _ => 0

/-- Same for a matched `between` template, in either orientation. -/
def betweenCount (st : SearchState) (r : Option (Str × Str)) (fid : Str) : Nat :=
  match r with
  | none => 0
  | some caps =>
    match find_best_system_match st caps.1, find_best_system_match st caps.2 with
    | some s1, some s2 =>
      if s1 ≠ [] ∧ s2 ≠ [] then
        (st.flow_index.filter fun p =>
          decide ((p.2.source_system = s1 ∧ p.2.target_system = s2)
            ∨ (p.2.source_system = s2 ∧ p.2.target_system = s1)) && decide (p.1 = fid)).length
      else 0
    | _, _ => 0

/-- Modelled from the spec (the claimed reading of §4.5 item 2): the fuzzy
pass operates on the unknown-terms residual, and on the full token set
exactly when entity extraction recognized zero entities.  The implementation
instead substitutes whenever the residual is empty; this definition exists
solely for that comparison. -/
def fuzzyInputSpec (st : SearchState) (queryLower : Str) : List Str :=
  let ents := extract_entities st queryLower
  if ents.systems = [] ∧ ents.formats = [] ∧ ents.transmission_methods = []
      ∧ ents.interfaces = [] then
    tokenize queryLower
  else ents.unknown_terms

/-- Final scores under the claimed fuzzy-trigger semantics (identical to
`finalScores` except for the fuzzy input). -/
def finalScoresSpecC3 (st : SearchState) (queryLower : Str) : ScoreMap :=
  let m1 := search_with_entities st (extract_entities st queryLower) (fun _ => 0)
  let m2 := fuzzy_term_matching st (fuzzyInputSpec st queryLower) m1
  let m3 := fulltext_search st (tokenize queryLower) m2
  pattern_based_search st queryLower m3

/-! Concrete catalogs used by counterexamples and witnesses. -/

def exFlowA : Flow :=
  { id := "f1".data, name := "testfluss alpha".data, description := [],
    transmission_method := [], format := "NOMINT".data, trigger := [],
    source_system := "GRID".data, target_system := "MIRA".data, process_steps := [] }

def exFlowB : Flow :=
  { id := "f2".data, name := "beta meldung".data, description := [],
    transmission_method := [], format := [], trigger := [],
    source_system := "MIRA".data, target_system := "GRID".data, process_steps := [] }

def exDS : DataStore :=
  { data_flows := [exFlowA, exFlowB], systems := ["GRID".data, "MIRA".data],
    formats := ["NOMINT".data], transmission_methods := [], interfaces := [] }

def exState : SearchState := initSearch exDS

def c3Flow : Flow :=
  { id := "g1".data, name := "nomint alpha".data, description := [],
    transmission_method := [], format := "NOMINT".data, trigger := [],
    source_system := [], target_system := [], process_steps := [] }

def c3DS : DataStore :=
  { data_flows := [c3Flow], systems := [], formats := ["NOMINT".data],
    transmission_methods := [], interfaces := [] }

def c3State : SearchState := initSearch c3DS

def c4FlowA : Flow :=
  { id := "h1".data, name := "gas".data, description := [],
    transmission_method := [], format := [], trigger := [],
    source_system := "GAS-X".data, target_system := [], process_steps := [] }

def c4FlowB : Flow :=
  { id := "h2".data, name := "beta".data, description := [],
    transmission_method := [], format := [], trigger := [],
    source_system := [], target_system := [], process_steps := [] }

def c4DS : DataStore :=
  { data_flows := [c4FlowA, c4FlowB], systems := ["GAS-X".data],
    formats := [], transmission_methods := [], interfaces := [] }

def c4State : SearchState := initSearch c4DS

def tieFlowA : Flow :=
  { id := "t1".data, name := "alpha eins".data, description := [],
    transmission_method := [], format := [], trigger := [],
    source_system := [], target_system := [], process_steps := [] }

def tieFlowB : Flow :=
  { id := "t2".data, name := "alpha zwei".data, description := [],
    transmission_method := [], format := [], trigger := [],
    source_system := [], target_system := [], process_steps := [] }

def tieDS : DataStore :=
  { data_flows := [tieFlowA, tieFlowB], systems := [], formats := [],
    transmission_methods := [], interfaces := [] }

def tieState : SearchState := initSearch tieDS

def relFlowA : Flow :=
  { id := "r1".data, name := "alpha".data, description := [],
    transmission_method := [], format := [], trigger := [],
    source_system := "S1".data, target_system := "S2".data, process_steps := [] }

def relFlowB : Flow :=
  { id := "r2".data, name := "zzz".data, description := [],
    transmission_method := [], format := [], trigger := [],
    source_system := "S2".data, target_system := "S3".data, process_steps := [] }

def relDS : DataStore :=
  { data_flows := [relFlowA, relFlowB], systems := ["S1".data, "S2".data, "S3".data],
    formats := [], transmission_methods := [], interfaces := [] }

def relState : SearchState := initSearch relDS

def c9Flow : Flow :=
  { id := "n1".data, name := "ab".data, description := [],
    transmission_method := [], format := [], trigger := [],
    source_system := [], target_system := [], process_steps := [] }

def c9DS : DataStore :=
  { data_flows := [c9Flow], systems := [], formats := [],
    transmission_methods := [], interfaces := [] }

def c9State : SearchState := initSearch c9DS

def c9NameFlow : Flow :=
  { id := "n2".data, name := "alpha test".data, description := [],
    transmission_method := [], format := [], trigger := [],
    source_system := [], target_system := [], process_steps := [] }

def c9NameDS : DataStore :=
  { data_flows := [c9NameFlow],
    systems := [], formats := [], transmission_methods := [], interfaces := [] }


/-! ## Generic lemmas about score updates -/

theorem bumpMany_apply (l : List (Str × ℚ)) (m : ScoreMap) (k : Str) :
    bumpMany m l k = m k + contribSum l k := by
  induction l generalizing m with
  | nil => simp [bumpMany, contribSum]
  | cons p t ih =>
    show bumpMany (bump m p.1 p.2) t k = m k + contribSum (p :: t) k
    rw [ih]
    unfold bump contribSum
    simp only [List.map_cons, List.sum_cons]
    by_cases h : p.1 = k
    · subst h
      simp
      ring
    · have h' : ¬ k = p.1 := fun hk => h hk.symm
      simp [h, h']

theorem contribSum_nonneg (l : List (Str × ℚ)) (k : Str)
    (h : ∀ p ∈ l, 0 ≤ p.2) : 0 ≤ contribSum l k := by
  unfold contribSum
  induction l with
  | nil => simp
  | cons p t ih =>
    simp only [List.map_cons, List.sum_cons]
    have hp := h p (by simp)
    have ht := ih (fun q hq => h q (by simp [hq]))
    by_cases hk : p.1 = k
    · simp [hk]; positivity
    · simpa [hk] using ht

theorem le_contribSum_of_mem (l : List (Str × ℚ)) (k : Str) (w : ℚ)
    (hmem : (k, w) ∈ l) (h : ∀ p ∈ l, 0 ≤ p.2) : w ≤ contribSum l k := by
  induction l with
  | nil => cases hmem
  | cons p t ih =>
    unfold contribSum
    simp only [List.map_cons, List.sum_cons]
    rcases List.mem_cons.1 hmem with heq | hta
    · subst heq
      simp only [eq_self_iff_true, if_true]
      have : 0 ≤ contribSum t k := contribSum_nonneg t k (fun q hq => h q (by simp [hq]))
      unfold contribSum at this
      linarith
    · have hw := ih hta (fun q hq => h q (by simp [hq]))
      unfold contribSum at hw
      have hp := h p (by simp)
      by_cases hk : p.1 = k
      · simp only [hk, eq_self_iff_true, if_true]; linarith
      · simpa [hk] using hw

theorem bumpMany_mono (l : List (Str × ℚ)) (m : ScoreMap) (k : Str)
    (h : ∀ p ∈ l, 0 ≤ p.2) : m k ≤ bumpMany m l k := by
  rw [bumpMany_apply]
  have := contribSum_nonneg l k h
  linarith


/-! ## Non-negativity of every pass's contributions -/

theorem sysWeight_nonneg (dir : Option Direction) (s : Str) (fl : Flow) :
    0 ≤ sysWeight dir s fl := by
  unfold sysWeight
  repeat' split
  all_goals norm_num

theorem lcsLen_nonneg (a b : Str) : 0 ≤ (lcsLen a b : ℚ) := by positivity

theorem fuzzSim_nonneg (a b : Str) : 0 ≤ fuzzSim a b := by
  unfold fuzzSim
  split
  · norm_num
  · positivity

theorem entity_contribs_nonneg (st : SearchState) (ents : QueryEntities) :
    ∀ p ∈ entity_contribs st ents, 0 ≤ p.2 := by
  intro p hp
  unfold entity_contribs at hp
  simp only [List.mem_append, List.mem_flatMap, List.mem_map] at hp
  rcases hp with ((⟨s, _, hs⟩ | ⟨f, _, hf⟩) | ⟨m, _, hm⟩) | ⟨i, _, hi⟩
  · rcases hs with ⟨fid, _, hfid⟩
    rcases hlk : alookup st.flow_index fid with _ | flow
    · rw [hlk] at hfid; cases hfid
    · rw [hlk] at hfid
      simp only [List.mem_singleton] at hfid
      subst hfid
      exact sysWeight_nonneg _ _ _
  · rcases hf with ⟨fid, _, hfid⟩
    rw [← hfid]; norm_num
  · rcases hm with ⟨fid, _, hfid⟩
    rw [← hfid]; norm_num
  · rcases hi with ⟨fid, _, hfid⟩
    rw [← hfid]; norm_num

theorem fuzzy_contribs_nonneg (st : SearchState) (terms : List Str) :
    ∀ p ∈ fuzzy_contribs st terms, 0 ≤ p.2 := by
  intro p hp
  unfold fuzzy_contribs at hp
  split at hp
  · cases hp
  · simp only [List.mem_flatMap] at hp
    rcases hp with ⟨term, _, hterm⟩
    split at hterm
    · cases hterm
    · simp only [List.mem_flatMap] at hterm
      rcases hterm with ⟨ms, _, hms⟩
      split at hms
      · rename_i hge
        simp only [List.mem_map] at hms
        rcases hms with ⟨fid, _, hfid⟩
        rw [← hfid]
        simp only
        linarith
      · cases hms

theorem fulltext_contribs_nonneg (st : SearchState) (toks : List Str) :
    ∀ p ∈ fulltext_contribs st toks, 0 ≤ p.2 := by
  intro p hp
  unfold fulltext_contribs at hp
  simp only [List.mem_append, List.mem_flatMap, List.mem_map] at hp
  rcases hp with ⟨tok, _, fid, _, hfid⟩ | ⟨tok, _, fid, _, hfid⟩ <;>
    rw [← hfid] <;> norm_num

theorem fromToContribs_nonneg (st : SearchState) (r : Option (Str × Str)) :
    ∀ p ∈ fromToContribs st r, 0 ≤ p.2 := by
  intro p hp
  unfold fromToContribs at hp
  split at hp
  · cases hp
  · split at hp
    · split at hp
      · simp only [List.mem_filterMap] at hp
        rcases hp with ⟨e, _, he⟩
        split at he
        · cases he; norm_num
        · cases he
      · cases hp
    · cases hp

theorem betweenContribs_nonneg (st : SearchState) (r : Option (Str × Str)) :
    ∀ p ∈ betweenContribs st r, 0 ≤ p.2 := by
  intro p hp
  unfold betweenContribs at hp
  split at hp
  · cases hp
  · split at hp
    · split at hp
      · simp only [List.mem_filterMap] at hp
        rcases hp with ⟨e, _, he⟩
        split at he
        · cases he; norm_num
        · cases he
      · cases hp
    · cases hp

theorem pattern_contribs_nonneg (st : SearchState) (q : Str) :
    ∀ p ∈ pattern_contribs st q, 0 ≤ p.2 := by
  intro p hp
  unfold pattern_contribs at hp
  simp only [List.mem_append] at hp
  rcases hp with ((h | h) | h) | h
  · exact fromToContribs_nonneg _ _ _ h
  · exact fromToContribs_nonneg _ _ _ h
  · exact betweenContribs_nonneg _ _ _ h
  · exact betweenContribs_nonneg _ _ _ h


/-! ## Properties of the stable descending sort -/

theorem insertDesc_perm {α : Type} (key : α → ℚ) (x : α) (l : List α) :
    insertDesc key x l ~ x :: l := by
  induction l with
  | nil => rfl
  | cons y ys ih =>
    unfold insertDesc
    split
    · rfl
    · exact (ih.cons y).trans (List.Perm.swap x y ys)

theorem sortDesc_perm {α : Type} (key : α → ℚ) (l : List α) : sortDesc key l ~ l := by
  induction l with
  | nil => rfl
  | cons x xs ih => exact (insertDesc_perm key x (sortDesc key xs)).trans (ih.cons x)

theorem insertDesc_sorted {α : Type} (key : α → ℚ) (x : α) (l : List α)
    (h : l.Pairwise (fun a b => key b ≤ key a)) :
    (insertDesc key x l).Pairwise (fun a b => key b ≤ key a) := by
  induction l with
  | nil => simp [insertDesc]
  | cons y ys ih =>
    unfold insertDesc
    split
    · rename_i hyx
      refine List.Pairwise.cons ?_ h
      intro z hz
      rcases List.mem_cons.1 hz with rfl | hz'
      · exact hyx
      · exact le_trans (List.rel_of_pairwise_cons h hz') hyx
    · rename_i hyx
      push_neg at hyx
      refine List.Pairwise.cons ?_ (ih (List.Pairwise.of_cons h))
      intro z hz
      have hz' := (insertDesc_perm key x ys).mem_iff.1 hz
      rcases List.mem_cons.1 hz' with rfl | hz''
      · exact le_of_lt hyx
      · exact List.rel_of_pairwise_cons h hz''

theorem sortDesc_sorted {α : Type} (key : α → ℚ) (l : List α) :
    (sortDesc key l).Pairwise (fun a b => key b ≤ key a) := by
  induction l with
  | nil => simp [sortDesc]
  | cons x xs ih => exact insertDesc_sorted key x (sortDesc key xs) ih

theorem insertDesc_split {α : Type} (key : α → ℚ) (x : α) (l : List α) :
    ∃ u v, l = u ++ v ∧ insertDesc key x l = u ++ x :: v ∧ ∀ y ∈ u, key x < key y := by
  induction l with
  | nil => exact ⟨[], [], rfl, rfl, by simp⟩
  | cons y ys ih =>
    unfold insertDesc
    split
    · exact ⟨[], y :: ys, rfl, rfl, by simp⟩
    · rename_i hyx
      push_neg at hyx
      rcases ih with ⟨u, v, h1, h2, h3⟩
      refine ⟨y :: u, v, by simp [h1], by simp [h2], ?_⟩
      intro z hz
      rcases List.mem_cons.1 hz with rfl | hz'
      · exact hyx
      · exact h3 z hz'

/-- Stability: a pair already in non-increasing key order keeps its relative
order through the sort. -/
theorem sortDesc_pair_stable {α : Type} (key : α → ℚ) {a b : α} {l : List α}
    (hk : key b ≤ key a) (hab : [a, b] <+ l) : [a, b] <+ sortDesc key l := by
  induction l with
  | nil => cases hab
  | cons c t ih =>
    have hfold : sortDesc key (c :: t) = insertDesc key c (sortDesc key t) := rfl
    rw [hfold]
    cases hab with
    | cons _ h =>
      have h' := ih h
      rcases insertDesc_split key c (sortDesc key t) with ⟨u, v, h1, h2, _⟩
      rw [h2]
      have : u ++ v <+ u ++ c :: v :=
        (List.Sublist.refl u).append ((List.sublist_cons_self c v))
      exact (h1 ▸ h').trans this
    | cons₂ _ h =>
      rcases insertDesc_split key a (sortDesc key t) with ⟨u, v, h1, h2, h3⟩
      rw [h2]
      have hbmem : b ∈ sortDesc key t :=
        (sortDesc_perm key t).mem_iff.2 (h.subset (by simp))
      rw [h1] at hbmem
      rcases List.mem_append.1 hbmem with hbu | hbv
      · exact absurd hk (not_le.2 (h3 b hbu))
      · have : [a, b] <+ a :: v := (List.singleton_sublist.2 hbv).cons₂ a
        exact this.trans (List.sublist_append_right u (a :: v))


set_option maxRecDepth 200000

/-! ## Further contribution-sum lemmas -/

theorem contribSum_append (l1 l2 : List (Str × ℚ)) (k : Str) :
    contribSum (l1 ++ l2) k = contribSum l1 k + contribSum l2 k := by
  unfold contribSum
  rw [List.map_append, List.sum_append]

theorem contribSum_filterMap_const {w : ℚ} (P : (Str × Flow) → Prop) [DecidablePred P]
    (l : List (Str × Flow)) (fid : Str) :
    contribSum (l.filterMap fun p => if P p then some (p.1, w) else none) fid
      = w * ((l.filter fun p => decide (P p) && decide (p.1 = fid)).length : ℚ) := by
  induction l with
  | nil => simp [contribSum]
  | cons p t ih =>
    rw [List.filterMap_cons, List.filter_cons]
    by_cases hP : P p
    · rw [if_pos hP]
      by_cases hk : p.1 = fid
      · rw [contribSum, List.map_cons, List.sum_cons, if_pos hk]
        rw [← contribSum, ih]
        simp only [hP, hk, decide_eq_true_eq, List.length_cons]
        rw [if_pos (by simp [hP, hk])]
        simp only [List.length_cons]
        push_cast
        ring
      · rw [contribSum, List.map_cons, List.sum_cons, if_neg hk]
        rw [← contribSum, ih]
        rw [if_neg (by simp [hk])]
        ring
    · rw [if_neg hP]
      rw [ih, if_neg (by simp [hP])]

/-! ## C1: the frame of `search` -/

set_option maxHeartbeats 1000000

/-- Any sequence of in-place score annotations leaves everything except the
`search_score` field of the indexed flows unchanged. -/
theorem annot_fold_clearScore (l : List (Str × ℚ)) (fi : List (Str × Flow)) :
    ((l.foldl
        (fun fi p =>
          fi.map fun e =>
            if e.1 = p.1 then (e.1, { e.2 with search_score := some (roundTo2 p.2) }) else e)
        fi).map fun e => (e.1, clearScore e.2))
      = fi.map fun e => (e.1, clearScore e.2) := by
  induction l generalizing fi with
  | nil => rfl
  | cons p t ih =>
    rw [List.foldl_cons, ih, List.map_map]
    congr 1
    funext e
    by_cases h : e.1 = p.1 <;> simp [Function.comp, clearScore, h]

/-- C1, counterexample.  The claim states that `search` leaves the flow
records stored in the flow index unchanged; in fact the score annotation
(line 229) writes `search_score` into the indexed record dicts in place: on a
two-record catalog, the query `"alpha"` leaves the searcher state different
from the state before the call, with the stored record `f1` carrying
`search_score = 2.0` afterwards instead of no score. -/
theorem C1_search_mutates_flow_index :
    (search exState "alpha".data 20).1 ≠ exState
    ∧ (alookup (search exState "alpha".data 20).1.flow_index "f1".data).map Flow.search_score
        = some (some 2)
    ∧ (alookup exState.flow_index "f1".data).map Flow.search_score = some none := by
  with_unfolding_all decide

/-- C1, amended.  Executing `search` leaves the six inverted indices, the
synonym/variant tables and the key-term lists unchanged, and changes the
records stored in the flow index at most in their `search_score` annotation
(erasing that annotation recovers the pre-query flow index exactly); the
records themselves are not identical before and after the call, so the
claimed read-only behavior holds only up to the score annotation. -/
theorem C1_amended_frame (st : SearchState) (q : Str) (n : Nat) :
    (search st q n).1.systems = st.systems
    ∧ (search st q n).1.formats = st.formats
    ∧ (search st q n).1.transmission_methods = st.transmission_methods
    ∧ (search st q n).1.interfaces = st.interfaces
    ∧ (search st q n).1.name_index = st.name_index
    ∧ (search st q n).1.description_index = st.description_index
    ∧ (search st q n).1.system_index = st.system_index
    ∧ (search st q n).1.format_index = st.format_index
    ∧ (search st q n).1.transmission_index = st.transmission_index
    ∧ (search st q n).1.interface_index = st.interface_index
    ∧ (search st q n).1.system_variants = st.system_variants
    ∧ (search st q n).1.format_variants = st.format_variants
    ∧ (search st q n).1.transmission_variants = st.transmission_variants
    ∧ ((search st q n).1.flow_index.map fun e => (e.1, clearScore e.2))
        = st.flow_index.map fun e => (e.1, clearScore e.2) := by
  refine ⟨rfl, rfl, rfl, rfl, rfl, rfl, rfl, rfl, rfl, rfl, rfl, rfl, rfl, ?_⟩
  show ((newFlowIndex st (lowerStr q) n).map fun e => (e.1, clearScore e.2)) = _
  unfold newFlowIndex
  exact annot_fold_clearScore _ _


/-! ## C2: the directional-pattern pass -/

/-- C2, counterexample.  The claim states that only the first matching
template is applied.  The source iterates all four templates without a
`break`: on the catalog `exDS` and the query
`"von grid nach mira zwischen mira und grid"`, both the `von/nach` template
(captures `grid`, `mira`) and the `zwischen/und` template (captures `mira`,
`grid`) match, so record `f1` (GRID→MIRA) receives `+10.0` and record `f2`
(MIRA→GRID) receives `+5.0` from the `between` template even though the
higher-priority `von/nach` template matched — under the claimed
first-match-only semantics (`pattern_contribs_first_only`) the pass would add
`+5.0` to `f1` and nothing to `f2`. -/
theorem C2_all_matching_templates_apply :
    contribSum (pattern_contribs exState "von grid nach mira zwischen mira und grid".data)
        "f1".data = 10
    ∧ contribSum (pattern_contribs exState "von grid nach mira zwischen mira und grid".data)
        "f2".data = 5
    ∧ contribSum
        (pattern_contribs_first_only exState "von grid nach mira zwischen mira und grid".data)
        "f1".data = 5
    ∧ contribSum
        (pattern_contribs_first_only exState "von grid nach mira zwischen mira und grid".data)
        "f2".data = 0
    ∧ dirSearch "von".data "nach".data 0
        (lowerStr "von grid nach mira zwischen mira und grid".data)
        = some ("grid".data, "mira".data) := by
  with_unfolding_all decide

/-- The per-record sum of one resolved `from_to` template. -/
theorem fromToContribs_sum (st : SearchState) (s1 s2 : Str) (fid : Str) :
    contribSum
        (st.flow_index.filterMap fun p =>
          if p.2.source_system = s1 ∧ p.2.target_system = s2 then some (p.1, (5.0 : ℚ))
          else none) fid
      = 5 * ((st.flow_index.filter fun p =>
          decide (p.2.source_system = s1 ∧ p.2.target_system = s2)
            && decide (p.1 = fid)).length : ℚ) :=
  (contribSum_filterMap_const
    (fun p => p.2.source_system = s1 ∧ p.2.target_system = s2) st.flow_index fid).trans
    (by norm_num)

/-- The per-record sum of one resolved `between` template. -/
theorem betweenContribs_sum (st : SearchState) (s1 s2 : Str) (fid : Str) :
    contribSum
        (st.flow_index.filterMap fun p =>
          if (p.2.source_system = s1 ∧ p.2.target_system = s2)
              ∨ (p.2.source_system = s2 ∧ p.2.target_system = s1) then some (p.1, (5.0 : ℚ))
          else none) fid
      = 5 * ((st.flow_index.filter fun p =>
          decide ((p.2.source_system = s1 ∧ p.2.target_system = s2)
            ∨ (p.2.source_system = s2 ∧ p.2.target_system = s1))
            && decide (p.1 = fid)).length : ℚ) :=
  (contribSum_filterMap_const
    (fun p => (p.2.source_system = s1 ∧ p.2.target_system = s2)
      ∨ (p.2.source_system = s2 ∧ p.2.target_system = s1)) st.flow_index fid).trans
    (by norm_num)

/-- C2, amended.  All four bilingual templates are tested against the
lowercase raw query and EVERY matching template is applied (the pass is the
sum of the four template contributions, not first-match-only); within one
template the targeting rule is as claimed: a matched `from_to` template adds
`+5.0` exactly to the flow-index entries whose record has
`source = resolved(X)` and `target = resolved(Y)` (counted per entry), and a
matched `between` template adds `+5.0` for either orientation of the
resolved pair. -/
theorem C2_amended_pattern_pass (st : SearchState) (q : Str) (m : ScoreMap) (fid : Str) :
    pattern_based_search st q m fid
      = m fid
        + contribSum (fromToContribs st (dirSearch "von".data "nach".data 0 (lowerStr q))) fid
        + contribSum (fromToContribs st (dirSearch "from".data "to".data 0 (lowerStr q))) fid
        + contribSum (betweenContribs st (dirSearch "zwischen".data "und".data 1 (lowerStr q))) fid
        + contribSum (betweenContribs st (dirSearch "between".data "and".data 1 (lowerStr q))) fid
    ∧ (∀ r, contribSum (fromToContribs st r) fid = 5 * (fromToCount st r fid : ℚ))
    ∧ (∀ r, contribSum (betweenContribs st r) fid = 5 * (betweenCount st r fid : ℚ)) := by
  refine ⟨?_, ?_, ?_⟩
  · show bumpMany m (pattern_contribs st q) fid = _
    rw [bumpMany_apply]
    unfold pattern_contribs
    rw [contribSum_append, contribSum_append, contribSum_append]
    ring
  · intro r
    unfold fromToContribs fromToCount
    split
    · simp [contribSum]
    · split
      · split
        · exact fromToContribs_sum st _ _ fid
        · simp [contribSum]
      · simp [contribSum]
  · intro r
    unfold betweenContribs betweenCount
    split
    · simp [contribSum]
    · split
      · split
        · exact betweenContribs_sum st _ _ fid
        · simp [contribSum]
      · simp [contribSum]


/-! ## C3: the fuzzy-pass input -/

theorem mem_dedupAux (seen l : List Str) (x : Str) :
    x ∈ dedupAux seen l ↔ x ∈ l ∧ x ∉ seen := by
  induction l generalizing seen with
  | nil => simp [dedupAux]
  | cons y ys ih =>
    unfold dedupAux
    by_cases hy : y ∈ seen
    · rw [if_pos hy, ih]
      constructor
      · rintro ⟨h1, h2⟩
        exact ⟨List.mem_cons_of_mem y h1, h2⟩
      · rintro ⟨h1, h2⟩
        rcases List.mem_cons.1 h1 with rfl | h1'
        · exact absurd hy h2
        · exact ⟨h1', h2⟩
    · rw [if_neg hy]
      constructor
      · intro h
        rcases List.mem_cons.1 h with rfl | h'
        · exact ⟨List.mem_cons_self x ys, hy⟩
        · rcases (ih (y :: seen)).1 h' with ⟨h1, h2⟩
          exact ⟨List.mem_cons_of_mem y h1,
            fun hx => h2 (List.mem_cons_of_mem y hx)⟩
      · rintro ⟨h1, h2⟩
        rcases List.mem_cons.1 h1 with rfl | h1'
        · exact List.mem_cons_self x _
        · by_cases hxy : x = y
          · subst hxy; exact List.mem_cons_self x _
          · exact List.mem_cons_of_mem y
              ((ih (y :: seen)).2 ⟨h1', by simp [hxy, h2]⟩)

theorem mem_dedupKeepFirst (l : List Str) (x : Str) :
    x ∈ dedupKeepFirst l ↔ x ∈ l := by
  unfold dedupKeepFirst
  rw [mem_dedupAux]
  simp

/-- Every step of the entity-matching folds either leaves the accumulator
unchanged or appends one matched entity together with its matched tokens. -/
def entStep (g : List Str × List Str → Str → List Str × List Str) : Prop :=
  ∀ acc c, g acc c = acc ∨ ∃ x ys, g acc c = (acc.1 ++ [x], acc.2 ++ ys)

theorem foldl_entStep_ext {g : List Str × List Str → Str → List Str × List Str}
    (hg : entStep g) (l : List Str) (acc : List Str × List Str) :
    ∃ e1 e2, List.foldl g acc l = (acc.1 ++ e1, acc.2 ++ e2) := by
  induction l generalizing acc with
  | nil => exact ⟨[], [], by simp⟩
  | cons c t ih =>
    rw [List.foldl_cons]
    rcases hg acc c with heq | ⟨x, ys, heq⟩
    · rw [heq]; exact ih acc
    · rw [heq]
      rcases ih (acc.1 ++ [x], acc.2 ++ ys) with ⟨e1, e2, hres⟩
      exact ⟨[x] ++ e1, ys ++ e2, by simpa [List.append_assoc] using hres⟩

theorem foldl_entStep_fst_eq {g : List Str × List Str → Str → List Str × List Str}
    (hg : entStep g) (l : List Str) (acc : List Str × List Str)
    (h : (List.foldl g acc l).1 = acc.1) : List.foldl g acc l = acc := by
  induction l generalizing acc with
  | nil => rfl
  | cons c t ih =>
    rw [List.foldl_cons] at h ⊢
    rcases hg acc c with heq | ⟨x, ys, heq⟩
    · rw [heq] at h ⊢; exact ih acc h
    · rw [heq] at h
      rcases foldl_entStep_ext hg t (acc.1 ++ [x], acc.2 ++ ys) with ⟨e1, e2, hres⟩
      rw [hres] at h
      simp only [Prod.fst] at h
      have := congrArg List.length h
      simp [List.length_append] at this

theorem entityFold_entStep (variants : List (Str × List Str)) (tokensOf : Str → List Str)
    (querySet : List Str) (q : Str) (useTokens : Bool) :
    entStep (entityFold variants tokensOf querySet q useTokens) := by
  intro acc c
  unfold entityFold
  split
  · exact Or.inr ⟨c, _, rfl⟩
  · split
    · exact Or.inr ⟨c, _, rfl⟩
    · exact Or.inl rfl

/-- C3, counterexample.  On a catalog with format `NOMINT` and one record
named `"nomint alpha"`, the query `"nomint"` is fully consumed by entity
extraction (one format recognized, empty residual), yet the fuzzy pass runs
on the full token list `["nomint"]` — the source replaces the residual
whenever it is EMPTY, not when zero entities were recognized as claimed —
and the record's final score is 4.0 instead of the 3.0 the claimed semantics
(`finalScoresSpecC3`) produces. -/
theorem C3_fuzzy_trigger_counterexample :
    (extract_entities c3State "nomint".data).formats = ["NOMINT".data]
    ∧ (extract_entities c3State "nomint".data).unknown_terms = []
    ∧ (entsAfterSub c3State "nomint".data).unknown_terms = ["nomint".data]
    ∧ fuzzyInputSpec c3State "nomint".data = []
    ∧ finalScores c3State "nomint".data "g1".data = 4
    ∧ finalScoresSpecC3 c3State "nomint".data "g1".data = 3 := by
  with_unfolding_all decide

theorem fmtStep_entStep (st : SearchState) (q : Str) : entStep (fmtStep st q) := by
  intro acc c
  unfold fmtStep
  split
  · exact Or.inr ⟨c, _, rfl⟩
  · split
    · exact Or.inr ⟨c, _, rfl⟩
    · exact Or.inl rfl

theorem tmStep_entStep (st : SearchState) (q : Str) : entStep (tmStep st q) := by
  intro acc c
  unfold tmStep
  split
  · exact Or.inr ⟨c, _, rfl⟩
  · split
    · exact Or.inr ⟨c, _, rfl⟩
    · exact Or.inl rfl

theorem ifcStep_entStep (q : Str) : entStep (ifcStep q) := by
  intro acc c
  unfold ifcStep
  split
  · exact Or.inr ⟨c, _, rfl⟩
  · exact Or.inl rfl

/-- C3, amended.  The fuzzy pass operates on the unknown-terms residual, and
on the full query token list instead exactly when the RESIDUAL IS EMPTY — in
particular whenever entity extraction consumed every token, even if entities
were recognized.  When extraction recognizes zero entities the residual
already contains exactly the query tokens (as a set), so it coincides with
the full token set. -/
theorem C3_amended_fuzzy_trigger (st : SearchState) (qL : Str) :
    ((entsAfterSub st qL).unknown_terms
      = if (extract_entities st qL).unknown_terms = [] then tokenize qL
        else (extract_entities st qL).unknown_terms)
    ∧ ((extract_entities st qL).systems = [] ∧ (extract_entities st qL).formats = []
        ∧ (extract_entities st qL).transmission_methods = []
        ∧ (extract_entities st qL).interfaces = [] →
      ∀ t, t ∈ (entsAfterSub st qL).unknown_terms ↔ t ∈ tokenize qL) := by
  constructor
  · unfold entsAfterSub
    split <;> simp_all
  · rintro ⟨hs, hf, hm, hi⟩ t
    have hs' : (st.systems.foldl
        (entityFold st.system_variants tokenize (dedupKeepFirst (tokenize qL))
          (lowerStr qL) true) ([], [])).1 = [] := hs
    have hsysEq := foldl_entStep_fst_eq
      (entityFold_entStep st.system_variants tokenize (dedupKeepFirst (tokenize qL))
        (lowerStr qL) true) st.systems ([], []) hs'
    have hf' : (st.formats.foldl (fmtStep st (lowerStr qL))
        ([], (st.systems.foldl
          (entityFold st.system_variants tokenize (dedupKeepFirst (tokenize qL))
            (lowerStr qL) true) ([], [])).2)).1 = [] := hf
    have hfmtEq := foldl_entStep_fst_eq (fmtStep_entStep st (lowerStr qL)) st.formats _ hf'
    have hm' : (st.transmission_methods.foldl (tmStep st (lowerStr qL))
        ([], (st.formats.foldl (fmtStep st (lowerStr qL))
          ([], (st.systems.foldl
            (entityFold st.system_variants tokenize (dedupKeepFirst (tokenize qL))
              (lowerStr qL) true) ([], [])).2)).2)).1 = [] := hm
    have htmEq := foldl_entStep_fst_eq (tmStep_entStep st (lowerStr qL))
      st.transmission_methods _ hm'
    have hi' : (st.interfaces.foldl (ifcStep (lowerStr qL))
        ([], (st.transmission_methods.foldl (tmStep st (lowerStr qL))
          ([], (st.formats.foldl (fmtStep st (lowerStr qL))
            ([], (st.systems.foldl
              (entityFold st.system_variants tokenize (dedupKeepFirst (tokenize qL))
                (lowerStr qL) true) ([], [])).2)).2)).2)).1 = [] := hi
    have hifcEq := foldl_entStep_fst_eq (ifcStep_entStep (lowerStr qL)) st.interfaces _ hi'
    have hresid : (extract_entities st qL).unknown_terms = dedupKeepFirst (tokenize qL) := by
      show (dedupKeepFirst (tokenize qL)).filter
        (fun t => decide (t ∉ (st.interfaces.foldl (ifcStep (lowerStr qL))
          ([], (st.transmission_methods.foldl (tmStep st (lowerStr qL))
            ([], (st.formats.foldl (fmtStep st (lowerStr qL))
              ([], (st.systems.foldl
                (entityFold st.system_variants tokenize (dedupKeepFirst (tokenize qL))
                  (lowerStr qL) true) ([], [])).2)).2)).2)).2)) = _
      rw [hifcEq, htmEq, hfmtEq, hsysEq]
      simp
    have h1 : (entsAfterSub st qL).unknown_terms
        = if (extract_entities st qL).unknown_terms = [] then tokenize qL
          else (extract_entities st qL).unknown_terms := by
      unfold entsAfterSub
      split <;> simp_all
    rw [h1]
    by_cases hres : (extract_entities st qL).unknown_terms = []
    · rw [if_pos hres]
    · rw [if_neg hres, hresid]
      exact mem_dedupKeepFirst (tokenize qL) t


/-- Witness for `C3_amended_fuzzy_trigger`: on the catalog `relDS` the query
`"alpha"` matches no entity, and the fuzzy input indeed contains exactly the
query tokens. -/
theorem C3_amended_fuzzy_trigger_witness :
    "alpha".data ∈ (entsAfterSub relState "alpha".data).unknown_terms ↔
      "alpha".data ∈ tokenize "alpha".data :=
  (C3_amended_fuzzy_trigger relState "alpha".data).2
    (by with_unfolding_all decide) "alpha".data

/-! ## C4: non-negativity, additivity and the failure of per-term monotonicity -/

/-- C4, counterexample.  On the catalog `c4DS` (record `h1` named `"gas"`
with source system `GAS-X`, record `h2` named `"beta"`), the query
`"gasx beta"` gives `h1` the final score 1.0; removing the matching term
`"beta"` (a name-index token matching record `h2`) empties the unknown-terms
residual, so the fuzzy pass reruns on the full token list `["gasx"]` and
`h1` gains the fuzzy contribution `6/7` (similarity 600/7 ≥ 80 against its
name token `"gas"`): the final score rises to `13/7 > 1`. -/
theorem C4_removing_matching_term_increases_score :
    tokenize "gasx beta".data = ["gasx".data, "beta".data]
    ∧ tokenize "gasx".data = ["gasx".data]
    ∧ alookup c4State.name_index "beta".data = some ["h2".data]
    ∧ finalScores c4State "gasx beta".data "h1".data = 1
    ∧ finalScores c4State "gasx".data "h1".data = 13 / 7
    ∧ finalScores c4State "gasx beta".data "h1".data
        < finalScores c4State "gasx".data "h1".data := by
  with_unfolding_all decide

/-- C4, amended.  Every pass only adds non-negative contributions: each of
the four scoring passes is pointwise monotone in the score map, and every
final score is non-negative.  Removing a matching query term can however
INCREASE a record's final score (see the counterexample): when the removal
empties the unknown-terms residual, the fuzzy pass reruns on the full token
list. -/
theorem C4_amended_nonneg_additive (st : SearchState) (ents : QueryEntities)
    (terms toks : List Str) (q : Str) (m : ScoreMap) (fid : Str) :
    m fid ≤ search_with_entities st ents m fid
    ∧ m fid ≤ fuzzy_term_matching st terms m fid
    ∧ m fid ≤ fulltext_search st toks m fid
    ∧ m fid ≤ pattern_based_search st q m fid
    ∧ 0 ≤ finalScores st q fid := by
  refine ⟨bumpMany_mono _ _ _ (entity_contribs_nonneg st ents),
    bumpMany_mono _ _ _ (fuzzy_contribs_nonneg st terms),
    bumpMany_mono _ _ _ (fulltext_contribs_nonneg st toks),
    bumpMany_mono _ _ _ (pattern_contribs_nonneg st q), ?_⟩
  have h1 : (0 : ℚ)
      ≤ search_with_entities st (extract_entities st q) (fun _ => 0) fid :=
    bumpMany_mono _ _ _ (entity_contribs_nonneg st (extract_entities st q))
  have h2 := bumpMany_mono (fuzzy_contribs st (entsAfterSub st q).unknown_terms)
    (search_with_entities st (extract_entities st q) (fun _ => 0)) fid
    (fuzzy_contribs_nonneg st (entsAfterSub st q).unknown_terms)
  have h3 := bumpMany_mono (fulltext_contribs st (tokenize q))
    (fuzzy_term_matching st (entsAfterSub st q).unknown_terms
      (search_with_entities st (extract_entities st q) (fun _ => 0))) fid
    (fulltext_contribs_nonneg st (tokenize q))
  have h4 := bumpMany_mono (pattern_contribs st q)
    (fulltext_search st (tokenize q)
      (fuzzy_term_matching st (entsAfterSub st q).unknown_terms
        (search_with_entities st (extract_entities st q) (fun _ => 0)))) fid
    (pattern_contribs_nonneg st q)
  show (0 : ℚ) ≤ pattern_based_search st q
    (fulltext_search st (tokenize q)
      (fuzzy_term_matching st (entsAfterSub st q).unknown_terms
        (search_with_entities st (extract_entities st q) (fun _ => 0)))) fid
  calc (0 : ℚ)
      ≤ search_with_entities st (extract_entities st q) (fun _ => 0) fid := h1
    _ ≤ _ := h2
    _ ≤ _ := h3
    _ ≤ _ := h4


/-! ## C5: the direct-result list -/

/-- C5, confirmed.  `direct_results` is the ranked list truncated to
`max_results` and annotated with the 2-decimal rounded score; the ranked list
is sorted by non-increasing score, contains only positive scores, and
equal-score pairs keep the relative order they have in the positively-scored
catalog-order list (stability), so direct results inherit all four claimed
properties. -/
theorem rankedList_perm (st : SearchState) (qL : Str) :
    rankedList st qL ~ scoredList st qL := by
  unfold rankedList
  exact sortDesc_perm _ _

theorem C5_direct_results_spec (st : SearchState) (q : Str) (n : Nat) :
    (search st q n).2.direct_results
      = ((rankedList st (lowerStr q)).take n).filterMap (annotFlow st)
    ∧ (rankedList st (lowerStr q)).Pairwise (fun a b => b.2 ≤ a.2)
    ∧ (∀ p ∈ rankedList st (lowerStr q), 0 < p.2)
    ∧ (∀ a b : Str × ℚ, a.2 = b.2 → [a, b] <+ scoredList st (lowerStr q) →
        [a, b] <+ rankedList st (lowerStr q))
    ∧ (search st q n).2.direct_results.length ≤ n
    ∧ (∀ fl ∈ (search st q n).2.direct_results,
        ∃ p ∈ (rankedList st (lowerStr q)).take n, fl.search_score = some (roundTo2 p.2)) := by
  refine ⟨rfl, sortDesc_sorted _ _, ?_, ?_, ?_, ?_⟩
  · intro p hp
    have hmem : p ∈ scoredList st (lowerStr q) :=
      (rankedList_perm st (lowerStr q)).mem_iff.1 hp
    have := (List.mem_filter.1 hmem).2
    exact of_decide_eq_true this
  · intro a b hab hsub
    exact sortDesc_pair_stable (fun p => p.2) (le_of_eq hab.symm) hsub
  · show (((rankedList st (lowerStr q)).take n).filterMap (annotFlow st)).length ≤ n
    calc (((rankedList st (lowerStr q)).take n).filterMap (annotFlow st)).length
        ≤ ((rankedList st (lowerStr q)).take n).length := List.length_filterMap_le _ _
      _ ≤ n := List.length_take_le n _
  · intro fl hfl
    have hfl' : fl ∈ ((rankedList st (lowerStr q)).take n).filterMap (annotFlow st) := hfl
    rcases List.mem_filterMap.1 hfl' with ⟨p, hp, hannot⟩
    refine ⟨p, hp, ?_⟩
    unfold annotFlow at hannot
    rcases Option.map_eq_some'.1 hannot with ⟨fl0, _, hfl0⟩
    rw [← hfl0]

/-- Witness for `C5_direct_results_spec`: the catalog `tieDS` has two records
that both score 2.0 on the query `"alpha"`; the stability conjunct places
them in catalog order in the ranked list. -/
theorem C5_direct_results_spec_witness :
    [("t1".data, (2 : ℚ)), ("t2".data, (2 : ℚ))] <+ rankedList tieState (lowerStr "alpha".data) :=
  (C5_direct_results_spec tieState "alpha".data 20).2.2.2.1
    ("t1".data, (2 : ℚ)) ("t2".data, (2 : ℚ)) rfl (by with_unfolding_all decide)


/-! ## C6: the related-flows list -/

theorem mem_matchingSystemsOf (direct : List Flow) (s : Str) :
    s ∈ matchingSystemsOf direct
      ↔ ∃ d ∈ direct, (d.source_system = s ∧ s ≠ []) ∨ (d.target_system = s ∧ s ≠ []) := by
  unfold matchingSystemsOf
  rw [mem_dedupKeepFirst]
  rw [List.mem_flatMap]
  constructor
  · rintro ⟨d, hd, hs⟩
    rcases List.mem_append.1 hs with h | h
    · by_cases hsrc : d.source_system = ([] : Str)
      · rw [if_neg (by simp [hsrc])] at h
        cases h
      · rw [if_pos (by simp [hsrc])] at h
        simp only [List.mem_singleton] at h
        exact ⟨d, hd, Or.inl ⟨h.symm ▸ rfl, h ▸ hsrc⟩⟩
    · by_cases htgt : d.target_system = ([] : Str)
      · rw [if_neg (by simp [htgt])] at h
        cases h
      · rw [if_pos (by simp [htgt])] at h
        simp only [List.mem_singleton] at h
        exact ⟨d, hd, Or.inr ⟨h.symm ▸ rfl, h ▸ htgt⟩⟩
  · rintro ⟨d, hd, hcase⟩
    refine ⟨d, hd, ?_⟩
    rcases hcase with ⟨heq, hne⟩ | ⟨heq, hne⟩
    · subst heq
      exact List.mem_append.2 (Or.inl (by rw [if_pos (by simp [hne])]; simp))
    · subst heq
      exact List.mem_append.2 (Or.inr (by rw [if_pos (by simp [hne])]; simp))

/-- C6, confirmed.  `related_flows` never contains a direct result, every
related record's (truthy) source or target system occurs as source or target
of some direct result, at most 10 records are returned, and they are taken in
(post-annotation) flow-index order — i.e. catalog order — with no secondary
ranking (the returned list is the 10-element truncation of an order-preserving
filter of the flow index). -/
theorem C6_related_flows_spec (st : SearchState) (q : Str) (n : Nat) :
    (∀ fl ∈ (search st q n).2.related_flows, fl ∉ (search st q n).2.direct_results)
    ∧ (∀ fl ∈ (search st q n).2.related_flows,
        ∃ d ∈ (search st q n).2.direct_results,
          (fl.source_system ≠ []
            ∧ (d.source_system = fl.source_system ∨ d.target_system = fl.source_system))
          ∨ (fl.target_system ≠ []
            ∧ (d.source_system = fl.target_system ∨ d.target_system = fl.target_system)))
    ∧ (search st q n).2.related_flows.length ≤ 10
    ∧ (search st q n).2.related_flows
        = (relatedAllOf st (lowerStr q) n).take 10
    ∧ relatedAllOf st (lowerStr q) n <+ ((search st q n).1.flow_index.map fun e => e.2) := by
  have hmem : ∀ fl ∈ (search st q n).2.related_flows,
      fl ∈ relatedAllOf st (lowerStr q) n := by
    intro fl hfl
    exact List.mem_of_mem_take hfl
  have hcond : ∀ fl ∈ relatedAllOf st (lowerStr q) n,
      fl ∉ directOf st (lowerStr q) n
      ∧ ((fl.source_system ≠ []
            ∧ fl.source_system ∈ matchingSystemsOf (directOf st (lowerStr q) n))
        ∨ (fl.target_system ≠ []
            ∧ fl.target_system ∈ matchingSystemsOf (directOf st (lowerStr q) n))) := by
    intro fl hfl
    unfold relatedAllOf at hfl
    have h := (List.mem_filter.1 hfl).2
    rw [Bool.and_eq_true, Bool.or_eq_true] at h
    refine ⟨of_decide_eq_true h.1, ?_⟩
    rcases h.2 with h' | h'
    · exact Or.inl (of_decide_eq_true h')
    · exact Or.inr (of_decide_eq_true h')
  refine ⟨?_, ?_, ?_, rfl, ?_⟩
  · intro fl hfl
    exact (hcond fl (hmem fl hfl)).1
  · intro fl hfl
    rcases (hcond fl (hmem fl hfl)).2 with ⟨hne, hms⟩ | ⟨hne, hms⟩
    · rcases (mem_matchingSystemsOf _ _).1 hms with ⟨d, hd, hcase⟩
      refine ⟨d, hd, Or.inl ⟨hne, ?_⟩⟩
      rcases hcase with ⟨heq, _⟩ | ⟨heq, _⟩
      · exact Or.inl heq
      · exact Or.inr heq
    · rcases (mem_matchingSystemsOf _ _).1 hms with ⟨d, hd, hcase⟩
      refine ⟨d, hd, Or.inr ⟨hne, ?_⟩⟩
      rcases hcase with ⟨heq, _⟩ | ⟨heq, _⟩
      · exact Or.inl heq
      · exact Or.inr heq
  · exact List.length_take_le 10 _
  · unfold relatedAllOf
    exact (List.filter_sublist _).trans (List.Sublist.refl _)

/-- Witness for `C6_related_flows_spec`: on `relDS` the query `"alpha"` ranks
record `r1` (S1→S2) and relates record `r2` (S2→S3, score 0), which is not a
direct result and shares system S2 with `r1`. -/
theorem C6_related_flows_spec_witness :
    relFlowB ∉ (search relState "alpha".data 20).2.direct_results
    ∧ ∃ d ∈ (search relState "alpha".data 20).2.direct_results,
        (relFlowB.source_system ≠ []
          ∧ (d.source_system = relFlowB.source_system
            ∨ d.target_system = relFlowB.source_system))
        ∨ (relFlowB.target_system ≠ []
          ∧ (d.source_system = relFlowB.target_system
            ∨ d.target_system = relFlowB.target_system)) :=
  ⟨(C6_related_flows_spec relState "alpha".data 20).1 relFlowB
      (by with_unfolding_all decide),
   (C6_related_flows_spec relState "alpha".data 20).2.1 relFlowB
      (by with_unfolding_all decide)⟩


/-! ## C10: per-occurrence multiplicity in the fuzzy vocabulary map -/

theorem count_alookup_multiAdd (v : List (Str × List Str)) (k x k' fid : Str) :
    ((alookup (multiAdd v k x) k').getD []).count fid
      = ((alookup v k').getD []).count fid + (if k' = k ∧ x = fid then 1 else 0) := by
  induction v with
  | nil =>
    by_cases hk : k = k'
    · subst hk
      by_cases hx : x = fid <;>
        simp [multiAdd, alookup, List.count_cons, hx]
    · have hcond : ¬ (k' = k ∧ x = fid) := by rintro ⟨h1, _⟩; exact hk h1.symm
      simp [multiAdd, alookup, hk, hcond]
  | cons e rest ih =>
    rcases e with ⟨k0, vs⟩
    by_cases hk0 : k0 = k
    · subst hk0
      by_cases hk' : k0 = k'
      · subst hk'
        by_cases hx : x = fid <;>
          simp [multiAdd, alookup, List.count_append, List.count_cons, hx]
      · have hcond : ¬ (k' = k0 ∧ x = fid) := by rintro ⟨h1, _⟩; exact hk' h1.symm
        simp [multiAdd, alookup, hk', hcond]
    · by_cases hk' : k0 = k'
      · subst hk'
        have hcond : ¬ (k0 = k ∧ x = fid) := by rintro ⟨h1, _⟩; exact hk0 h1
        simp [multiAdd, alookup, hk0, hcond]
      · simp [multiAdd, alookup, hk0, hk', ih]

theorem count_alookup_tokenFold (toks : List Str) (v : List (Str × List Str))
    (fid0 tok fid : Str) :
    ((alookup (toks.foldl (fun vv t => multiAdd vv t fid0) v) tok).getD []).count fid
      = ((alookup v tok).getD []).count fid
        + toks.count tok * (if fid0 = fid then 1 else 0) := by
  induction toks generalizing v with
  | nil => simp
  | cons t ts ih =>
    rw [List.foldl_cons, ih, count_alookup_multiAdd, List.count_cons]
    by_cases ht : tok = t
    · subst ht
      by_cases hf : fid0 = fid
      · simp [hf]
        ring
      · simp [hf]
    · have : ¬ (t == tok) = true := by simp [ht]; exact fun h => ht h.symm
      simp only [this, if_false]
      rw [if_neg (by rintro ⟨h1, _⟩; exact ht h1)]
      simp [Nat.add_zero, Nat.add_comm]

theorem count_alookup_buildVocabAux (fi : List (Str × Flow))
    (v : List (Str × List Str)) (tok fid : Str) :
    ((alookup (fi.foldl
        (fun vocab p =>
          if p.2.name ≠ [] then
            (tokenize p.2.name).foldl (fun vv t => multiAdd vv t p.1) vocab
          else vocab) v) tok).getD []).count fid
      = ((alookup v tok).getD []).count fid
        + ((fi.filter fun p => decide (p.1 = fid)).map
            fun p => (tokenize p.2.name).count tok).sum := by
  induction fi generalizing v with
  | nil => simp
  | cons p rest ih =>
    rw [List.foldl_cons, List.filter_cons]
    by_cases hname : p.2.name ≠ []
    · rw [if_pos hname, ih, count_alookup_tokenFold]
      by_cases hfid : p.1 = fid
      · rw [if_pos (by simp [hfid])]
        simp [hfid, Nat.mul_one, Nat.add_assoc]
      · rw [if_neg (by simp [hfid])]
        simp [hfid]
    · rw [if_neg hname]
      push_neg at hname
      rw [ih]
      by_cases hfid : p.1 = fid
      · rw [if_pos (by simp [hfid])]
        simp [hname, tokenize]
      · rw [if_neg (by simp [hfid])]

theorem contribSum_map_const_weight (l : List Str) (w : ℚ) (fid : Str) :
    contribSum (l.map fun f => (f, w)) fid = (l.count fid : ℚ) * w := by
  induction l with
  | nil => simp [contribSum]
  | cons x xs ih =>
    rw [List.map_cons, contribSum, List.map_cons, List.sum_cons, ← contribSum, ih,
      List.count_cons]
    by_cases hx : x = fid
    · simp [hx]
      ring
    · have : ¬ (x == fid) = true := by simp [hx]
      simp only [hx, if_false, this]
      push_cast
      ring

/-- C10, confirmed.  The vocabulary-to-record map of the fuzzy pass is built
per token OCCURRENCE: the flow-id list stored under a vocabulary token lists
a record once per occurrence of that token in the record's name, so a
matched candidate with weight `w = similarity/100` contributes exactly
`k · w` to a record whose name contains the matched token `k` times. -/
theorem C10_fuzzy_multiplicity (fi : List (Str × Flow)) (tok fid : Str)
    (w : ℚ) :
    ((alookup (buildVocab fi) tok).getD []).count fid
      = ((fi.filter fun p => decide (p.1 = fid)).map
          fun p => (tokenize p.2.name).count tok).sum
    ∧ contribSum (((alookup (buildVocab fi) tok).getD []).map fun f => (f, w)) fid
      = (((fi.filter fun p => decide (p.1 = fid)).map
          fun p => (tokenize p.2.name).count tok).sum : ℚ) * w := by
  have h1 : ((alookup (buildVocab fi) tok).getD []).count fid
      = ((fi.filter fun p => decide (p.1 = fid)).map
          fun p => (tokenize p.2.name).count tok).sum := by
    unfold buildVocab
    rw [count_alookup_buildVocabAux]
    simp [alookup]
  refine ⟨h1, ?_⟩
  rw [contribSum_map_const_weight, h1]


/-! ## C8: idempotence of tokenization under re-joining -/

theorem toNat_charOfNat (n : Nat) (h : n < 55296) : (Char.ofNat n).toNat = n := by
  rw [Char.ofNat, dif_pos (Or.inl (by exact_mod_cast h))]
  simp [Char.ofNatAux, Char.toNat, UInt32.toNat, BitVec.toNat_ofNatLt]

theorem pyLower_idem (c : Char) : pyLower (pyLower c) = pyLower c := by
  unfold pyLower
  by_cases h : 65 ≤ c.toNat ∧ c.toNat ≤ 90
  · rw [if_pos h]
    have hval : (Char.ofNat (c.toNat + 32)).toNat = c.toNat + 32 :=
      toNat_charOfNat _ (by omega)
    rw [if_neg (by rw [hval]; omega)]
  · rw [if_neg h, if_neg h]

theorem splitWs_sound (s : Str) :
    ∀ t ∈ splitWs s, t ≠ [] ∧ ∀ c ∈ t, c ∈ s ∧ isSpaceCh c = false := by
  induction s with
  | nil => intro t ht; cases ht
  | cons c cs ih =>
    intro t ht
    unfold splitWs at ht
    by_cases hsp : isSpaceCh c
    · rw [if_pos hsp] at ht
      rcases ih t ht with ⟨h1, h2⟩
      exact ⟨h1, fun x hx => ⟨List.mem_cons_of_mem c (h2 x hx).1, (h2 x hx).2⟩⟩
    · rw [if_neg hsp] at ht
      rcases hcs : cs with _ | ⟨d, ds⟩
      · rw [hcs] at ht
        simp only [List.mem_singleton] at ht
        subst ht
        refine ⟨by simp, fun x hx => ?_⟩
        simp only [List.mem_singleton] at hx
        subst hx
        exact ⟨by simp, by simpa using hsp⟩
      · rw [hcs] at ht
        simp only at ht
        by_cases hd : isSpaceCh d
        · rw [if_pos hd] at ht
          rcases List.mem_cons.1 ht with rfl | ht'
          · refine ⟨by simp, fun x hx => ?_⟩
            simp only [List.mem_singleton] at hx
            subst hx
            exact ⟨List.mem_cons_self x _, by simpa using hsp⟩
          · rw [← hcs] at ht'
            rcases ih t ht' with ⟨h1, h2⟩
            refine ⟨h1, fun x hx => ?_⟩
            rcases h2 x hx with ⟨hmem, hnsp⟩
            rw [hcs] at hmem
            exact ⟨List.mem_cons_of_mem c (hcs ▸ hmem), hnsp⟩
        · rw [if_neg hd] at ht
          rcases hsplit : splitWs (d :: ds) with _ | ⟨t0, ts⟩
          · rw [hsplit] at ht
            simp only [List.mem_singleton] at ht
            subst ht
            refine ⟨by simp, fun x hx => ?_⟩
            simp only [List.mem_singleton] at hx
            subst hx
            exact ⟨List.mem_cons_self x _, by simpa using hsp⟩
          · rw [hsplit] at ht
            have hsub : ∀ u ∈ splitWs (d :: ds),
                u ≠ [] ∧ ∀ x ∈ u, x ∈ d :: ds ∧ isSpaceCh x = false := by
              rw [← hcs]; exact fun u hu => ih u hu
            rcases List.mem_cons.1 ht with rfl | ht'
            · have ht0 := hsub t0 (by rw [hsplit]; exact List.mem_cons_self t0 ts)
              refine ⟨by simp, fun x hx => ?_⟩
              rcases List.mem_cons.1 hx with rfl | hx'
              · exact ⟨List.mem_cons_self x _, by simpa using hsp⟩
              · rcases ht0.2 x hx' with ⟨hmem, hnsp⟩
                exact ⟨List.mem_cons_of_mem c (hcs ▸ hmem), hnsp⟩
            · have htt := hsub t (by rw [hsplit]; exact List.mem_cons_of_mem t0 ht')
              refine ⟨htt.1, fun x hx => ?_⟩
              rcases htt.2 x hx with ⟨hmem, hnsp⟩
              exact ⟨List.mem_cons_of_mem c (hcs ▸ hmem), hnsp⟩


theorem splitWs_single (t : Str) (hne : t ≠ [])
    (hns : ∀ c ∈ t, isSpaceCh c = false) : splitWs t = [t] := by
  induction t with
  | nil => exact absurd rfl hne
  | cons c cs ih =>
    unfold splitWs
    rw [if_neg (by simp [hns c (List.mem_cons_self c cs)])]
    rcases hcs : cs with _ | ⟨d, ds⟩
    · rfl
    · simp only
      rw [if_neg (by simp [hns d (by rw [hcs]; simp)])]
      have hrec : splitWs cs = [cs] :=
        ih (by rw [hcs]; simp) (fun x hx => hns x (List.mem_cons_of_mem c hx))
      rw [hcs] at hrec
      rw [hrec]

theorem splitWs_token_cons (t r : Str) (hne : t ≠ [])
    (hns : ∀ c ∈ t, isSpaceCh c = false) :
    splitWs (t ++ ' ' :: r) = t :: splitWs r := by
  induction t with
  | nil => exact absurd rfl hne
  | cons c cs ih =>
    have h1 : isSpaceCh c = false := hns c (by simp)
    rcases hcs : cs with _ | ⟨d, ds⟩
    · subst hcs
      have hsp : isSpaceCh ' ' = true := by decide
      simp [splitWs, h1, hsp]
    · subst hcs
      have h2 : isSpaceCh d = false := hns d (by simp)
      have hrec := ih (by simp) (fun x hx => hns x (List.mem_cons_of_mem c hx))
      simp only [List.cons_append] at hrec ⊢
      conv_lhs => rw [splitWs]
      rw [if_neg (by simp [h1])]
      rw [hrec]
      rw [if_neg (by simp [h2])]
theorem mem_joinStr_space (toks : List Str) (c : Char)
    (h : c ∈ joinStr [' '] toks) : c = ' ' ∨ ∃ t ∈ toks, c ∈ t := by
  induction toks with
  | nil => cases h
  | cons t ts ih =>
    rcases hts : ts with _ | ⟨t', ts'⟩
    · subst hts
      exact Or.inr ⟨t, by simp, h⟩
    · rw [hts] at h ih
      unfold joinStr at h
      rcases List.mem_append.1 h with h1 | h1
      · rcases List.mem_append.1 h1 with h2 | h2
        · exact Or.inr ⟨t, by simp, h2⟩
        · simp only [List.mem_singleton] at h2
          exact Or.inl h2
      · rcases ih h1 with h2 | ⟨u, hu, hc⟩
        · exact Or.inl h2
        · exact Or.inr ⟨u, List.mem_cons_of_mem t hu, hc⟩

theorem splitWs_joinStr (toks : List Str) (hne : ∀ t ∈ toks, t ≠ [])
    (hns : ∀ t ∈ toks, ∀ c ∈ t, isSpaceCh c = false) :
    splitWs (joinStr [' '] toks) = toks := by
  induction toks with
  | nil => rfl
  | cons t ts ih =>
    rcases hts : ts with _ | ⟨t', ts'⟩
    · subst hts
      exact splitWs_single t (hne t (by simp)) (hns t (by simp))
    · subst hts
      have hjoin : joinStr [' '] (t :: t' :: ts') = t ++ ' ' :: joinStr [' '] (t' :: ts') := by
        show t ++ [' '] ++ joinStr [' '] (t' :: ts') = _
        simp
      rw [hjoin,
        splitWs_token_cons t _ (hne t (by simp)) (hns t (by simp)),
        ih (fun u hu => hne u (List.mem_cons_of_mem t hu))
          (fun u hu => hns u (List.mem_cons_of_mem t hu))]


theorem tokenize_token_facts (text : Str) :
    ∀ t ∈ tokenize text,
      (2 < t.length ∧ t ∉ stopwords)
      ∧ ∀ c ∈ t, isWordCh c = true ∧ isSpaceCh c = false ∧ pyLower c = c ∧ c ≠ '-' := by
  intro t ht
  unfold tokenize at ht
  by_cases h0 : text = []
  · rw [if_pos h0] at ht; cases ht
  · rw [if_neg h0] at ht
    dsimp only at ht
    have hfil := List.mem_filter.1 ht
    have hspl := hfil.1
    have hpred := hfil.2
    rw [Bool.and_eq_true, decide_eq_true_eq, Bool.not_eq_true',
      decide_eq_false_iff_not] at hpred
    refine ⟨hpred, ?_⟩
    intro c hc
    rcases (splitWs_sound _ t hspl).2 c hc with ⟨hct3, hnsp⟩
    have h3 := List.mem_filter.1 hct3
    have hct2 := h3.1
    have hkept := h3.2
    have hword : isWordCh c = true := by
      rw [Bool.or_eq_true] at hkept
      rcases hkept with h | h
      · exact h
      · rw [hnsp] at h; cases h
    rcases List.mem_map.1 hct2 with ⟨b, hb, hcb⟩
    rcases List.mem_map.1 hb with ⟨a, _, hba⟩
    have hlower : pyLower c = c := by
      by_cases hbd : b = '-'
      · rw [← hcb, hbd]
        decide
      · rw [← hcb, if_neg hbd, ← hba]
        exact pyLower_idem a
    have hdash : c ≠ '-' := by
      by_cases hbd : b = '-'
      · rw [← hcb, hbd]
        decide
      · rw [← hcb, if_neg hbd]
        exact hbd
    exact ⟨hword, hnsp, hlower, hdash⟩

/-- C8, confirmed.  Tokenization is idempotent under re-joining with a single
space: every produced token is a non-empty run of lower-case word characters
of length > 2 outside the stop list, so lowering, hyphen replacement,
punctuation stripping, whitespace splitting and the final filter all leave
the re-joined token sequence unchanged; and the empty (or absent, modelled as
empty) input tokenizes to the empty sequence. -/
theorem C8_tokenize_idempotent (text : Str) :
    tokenize (joinStr " ".data (tokenize text)) = tokenize text
    ∧ tokenize [] = [] := by
  refine ⟨?_, rfl⟩
  have hsep : (" ".data : Str) = [' '] := rfl
  rw [hsep]
  by_cases h0 : tokenize text = []
  · rw [h0]
    rfl
  · have hfacts := tokenize_token_facts text
    have hne : ∀ t ∈ tokenize text, t ≠ [] := by
      intro t ht hemp
      have := (hfacts t ht).1.1
      rw [hemp] at this
      simp at this
    have hns : ∀ t ∈ tokenize text, ∀ c ∈ t, isSpaceCh c = false :=
      fun t ht c hc => ((hfacts t ht).2 c hc).2.1
    have hsne : joinStr [' '] (tokenize text) ≠ [] := by
      rcases h0' : tokenize text with _ | ⟨t, ts⟩
      · exact absurd h0' h0
      · have htne : t ≠ [] := hne t (by rw [h0']; simp)
        rcases hts : ts with _ | ⟨t', ts'⟩
        · show t ≠ []
          exact htne
        · show t ++ [' '] ++ joinStr [' '] (t' :: ts') ≠ []
          simp [htne]
    have hchars : ∀ c ∈ joinStr [' '] (tokenize text),
        pyLower c = c ∧ c ≠ '-' ∧ (isWordCh c || isSpaceCh c) = true := by
      intro c hc
      rcases mem_joinStr_space (tokenize text) c hc with rfl | ⟨t, ht, hct⟩
      · exact ⟨by decide, by decide, by decide⟩
      · rcases (hfacts t ht).2 c hct with ⟨hw, _, hl, hd⟩
        exact ⟨hl, hd, by simp [hw]⟩
    have h1 : lowerStr (joinStr [' '] (tokenize text)) = joinStr [' '] (tokenize text) := by
      unfold lowerStr
      conv_rhs => rw [← List.map_id (joinStr [' '] (tokenize text))]
      exact List.map_congr_left (fun c hc => (hchars c hc).1)
    have h2 : (joinStr [' '] (tokenize text)).map (fun c => if c = '-' then ' ' else c)
        = joinStr [' '] (tokenize text) := by
      conv_rhs => rw [← List.map_id (joinStr [' '] (tokenize text))]
      exact List.map_congr_left (fun c hc => by
        rw [if_neg (hchars c hc).2.1]
        rfl)
    have h3 : (joinStr [' '] (tokenize text)).filter (fun c => isWordCh c || isSpaceCh c)
        = joinStr [' '] (tokenize text) :=
      List.filter_eq_self.2 (fun c hc => (hchars c hc).2.2)
    have h4 : splitWs (joinStr [' '] (tokenize text)) = tokenize text :=
      splitWs_joinStr (tokenize text) hne hns
    have h5 : (tokenize text).filter
        (fun t => decide (2 < t.length) && !(decide (t ∈ stopwords))) = tokenize text :=
      List.filter_eq_self.2 (fun t ht => by
        have hp := (hfacts t ht).1
        simp [hp.1, hp.2])
    conv_lhs => rw [tokenize]
    rw [if_neg hsne]
    show (splitWs (((lowerStr (joinStr [' '] (tokenize text))).map
        (fun c => if c = '-' then ' ' else c)).filter
          (fun c => isWordCh c || isSpaceCh c))).filter
        (fun t => decide (2 < t.length) && !(decide (t ∈ stopwords))) = tokenize text
    rw [h1, h2, h3, h4, h5]


/-! ## Construction lemmas for C7 and C9 -/

theorem alookup_nil_eq_none {β : Type} (m : List (Str × β))
    (h : ∀ e ∈ m, e.1 ≠ ([] : Str)) : alookup m [] = none := by
  induction m with
  | nil => rfl
  | cons e rest ih =>
    rcases e with ⟨k, v⟩
    unfold alookup
    rw [if_neg (h (k, v) (by simp))]
    exact ih (fun e he => h e (List.mem_cons_of_mem _ he))

theorem multiAdd_keys_ne (m : List (Str × List Str)) (k v : Str) (hk : k ≠ [])
    (h : ∀ e ∈ m, e.1 ≠ ([] : Str)) : ∀ e ∈ multiAdd m k v, e.1 ≠ ([] : Str) := by
  induction m with
  | nil =>
    intro e he
    unfold multiAdd at he
    simp only [List.mem_singleton] at he
    subst he
    exact hk
  | cons e0 rest ih =>
    rcases e0 with ⟨k0, vs⟩
    intro e he
    unfold multiAdd at he
    by_cases hk0 : k0 = k
    · rw [if_pos hk0] at he
      rcases List.mem_cons.1 he with rfl | he'
      · exact hk
      · exact h e (List.mem_cons_of_mem _ he')
    · rw [if_neg hk0] at he
      rcases List.mem_cons.1 he with rfl | he'
      · exact h (k0, vs) (by simp)
      · exact ih (fun e' he'' => h e' (List.mem_cons_of_mem _ he'')) e he'

/-- The four value-keyed indices of a constructed searcher use only truthy
(non-empty) keys. -/
def keysNe (ix : List (Str × List Str)) : Prop := ∀ e ∈ ix, e.1 ≠ ([] : Str)

theorem keysNe_multiAdd_fold {α : Type} (l : List α) (keyOf : α → Str) (fid : Str)
    (ix : List (Str × List Str)) (hix : keysNe ix) :
    keysNe (l.foldl (fun ix a => if keyOf a ≠ [] then multiAdd ix (keyOf a) fid else ix) ix) := by
  induction l generalizing ix with
  | nil => exact hix
  | cons a t ih =>
    rw [List.foldl_cons]
    by_cases hg : keyOf a ≠ []
    · rw [if_pos hg]
      exact ih _ (multiAdd_keys_ne ix (keyOf a) fid hg hix)
    · rw [if_neg hg]
      exact ih _ hix

theorem indexFlow_keysNe (st : SearchState) (f : Flow)
    (hsys : keysNe st.system_index) (hfmt : keysNe st.format_index)
    (htr : keysNe st.transmission_index) (hif : keysNe st.interface_index) :
    keysNe (indexFlow st f).system_index ∧ keysNe (indexFlow st f).format_index
    ∧ keysNe (indexFlow st f).transmission_index
    ∧ keysNe (indexFlow st f).interface_index := by
  refine ⟨?_, ?_, ?_, ?_⟩
  · show keysNe (if f.target_system ≠ [] then
        multiAdd (if f.source_system ≠ [] then
          multiAdd st.system_index f.source_system f.id else st.system_index)
          f.target_system f.id
      else (if f.source_system ≠ [] then
        multiAdd st.system_index f.source_system f.id else st.system_index))
    have h1 : keysNe (if f.source_system ≠ [] then
        multiAdd st.system_index f.source_system f.id else st.system_index) := by
      split
      · exact multiAdd_keys_ne _ _ _ (by assumption) hsys
      · exact hsys
    split
    · exact multiAdd_keys_ne _ _ _ (by assumption) h1
    · exact h1
  · show keysNe (if f.format ≠ [] then
        multiAdd st.format_index f.format f.id else st.format_index)
    split
    · exact multiAdd_keys_ne _ _ _ (by assumption) hfmt
    · exact hfmt
  · show keysNe (if f.transmission_method ≠ [] then
        (splitCh ';' f.transmission_method).foldl
          (fun ix part => if pyStrip part ≠ [] then multiAdd ix (pyStrip part) f.id else ix)
          st.transmission_index
      else st.transmission_index)
    split
    · exact keysNe_multiAdd_fold _ pyStrip _ st.transmission_index htr
    · exact htr
  · show keysNe (f.process_steps.foldl
      (fun ix step => if step.interface ≠ [] then multiAdd ix step.interface f.id else ix)
      st.interface_index)
    exact keysNe_multiAdd_fold _ ProcessStep.interface _ st.interface_index hif

theorem initSearch_keysNe (ds : DataStore) :
    keysNe (initSearch ds).system_index ∧ keysNe (initSearch ds).format_index
    ∧ keysNe (initSearch ds).transmission_index
    ∧ keysNe (initSearch ds).interface_index := by
  have hfold : ∀ (l : List Flow) (st : SearchState),
      keysNe st.system_index → keysNe st.format_index → keysNe st.transmission_index →
      keysNe st.interface_index →
      keysNe (l.foldl indexFlow st).system_index
      ∧ keysNe (l.foldl indexFlow st).format_index
      ∧ keysNe (l.foldl indexFlow st).transmission_index
      ∧ keysNe (l.foldl indexFlow st).interface_index := by
    intro l
    induction l with
    | nil => intro st h1 h2 h3 h4; exact ⟨h1, h2, h3, h4⟩
    | cons f t ih =>
      intro st h1 h2 h3 h4
      rw [List.foldl_cons]
      rcases indexFlow_keysNe st f h1 h2 h3 h4 with ⟨g1, g2, g3, g4⟩
      exact ih _ g1 g2 g3 g4
  have h0 : keysNe ([] : List (Str × List Str)) := by intro e he; cases he
  exact hfold ds.data_flows _ h0 h0 h0 h0


theorem alookup_mem {β : Type} (m : List (Str × β)) (k : Str) (v : β)
    (h : alookup m k = some v) : (k, v) ∈ m := by
  induction m with
  | nil => cases h
  | cons e rest ih =>
    rcases e with ⟨k0, v0⟩
    unfold alookup at h
    by_cases hk : k0 = k
    · rw [if_pos hk] at h
      cases h
      subst hk
      simp
    · rw [if_neg hk] at h
      exact List.mem_cons_of_mem _ (ih h)

theorem strHasSub_nil_eq_false (v : Str) (hv : v ≠ []) : strHasSub v [] = false := by
  rcases v with _ | ⟨c, cs⟩
  · exact absurd rfl hv
  · rfl

theorem systemVariantsOf_ne_nil (s : Str) : ∀ v ∈ systemVariantsOf s, v ≠ [] := by
  intro v hv hnil
  subst hnil
  unfold systemVariantsOf at hv
  simp only [List.mem_append] at hv
  rcases hv with ((((h | h) | h) | h) | h) | h <;>
    · split at h
      · revert h
        decide
      · cases h

theorem formatVariantsOf_ne_nil (f : Str) : ∀ v ∈ formatVariantsOf f, v ≠ [] := by
  intro v hv hnil
  subst hnil
  unfold formatVariantsOf at hv
  repeat' split at hv
  all_goals revert hv
  all_goals decide

theorem transmissionVariantsOf_ne_nil (m : Str) : ∀ v ∈ transmissionVariantsOf m, v ≠ [] := by
  intro v hv hnil
  subst hnil
  unfold transmissionVariantsOf at hv
  repeat' split at hv
  all_goals revert hv
  all_goals decide


theorem initSearch_system_variants_ne (ds : DataStore) :
    ∀ e ∈ (initSearch ds).system_variants, ∀ v ∈ e.2, v ≠ [] := by
  intro e he
  have : (initSearch ds).system_variants = ds.systems.map (fun s => (s, systemVariantsOf s)) := rfl
  rw [this] at he
  rcases List.mem_map.1 he with ⟨s, _, rfl⟩
  exact systemVariantsOf_ne_nil s

theorem initSearch_format_variants_ne (ds : DataStore) :
    ∀ e ∈ (initSearch ds).format_variants, ∀ v ∈ e.2, v ≠ [] := by
  intro e he
  have : (initSearch ds).format_variants = ds.formats.map (fun f => (f, formatVariantsOf f)) := rfl
  rw [this] at he
  rcases List.mem_map.1 he with ⟨f, _, rfl⟩
  exact formatVariantsOf_ne_nil f

theorem initSearch_transmission_variants_ne (ds : DataStore) :
    ∀ e ∈ (initSearch ds).transmission_variants, ∀ v ∈ e.2, v ≠ [] := by
  intro e he
  have : (initSearch ds).transmission_variants
      = ds.transmission_methods.map (fun m => (m, transmissionVariantsOf m)) := rfl
  rw [this] at he
  rcases List.mem_map.1 he with ⟨m, _, rfl⟩
  exact transmissionVariantsOf_ne_nil m

/-- On the empty query nothing matches: every variant lookup fails (variants
are non-empty, and a non-empty string is not a substring of `""`). -/
theorem variant_find_nil (variants : List (Str × List Str))
    (hvar : ∀ e ∈ variants, ∀ v ∈ e.2, v ≠ []) (cand : Str) :
    ((alookup variants cand).getD []).find? (fun v => strHasSub v []) = none := by
  rcases hlk : alookup variants cand with _ | vs
  · rfl
  · have hmem := alookup_mem variants cand vs hlk
    simp only [Option.getD_some]
    apply List.find?_eq_none.2
    intro v hv
    rw [strHasSub_nil_eq_false v (hvar (cand, vs) hmem v hv)]
    simp

theorem entityFold_nil_id (variants : List (Str × List Str))
    (hvar : ∀ e ∈ variants, ∀ v ∈ e.2, v ≠ [])
    (acc : List Str × List Str) (cand : Str) :
    entityFold variants tokenize [] [] true acc cand = acc := by
  unfold entityFold
  rw [if_neg (by
    rintro ⟨-, -, hany⟩
    rcases List.any_eq_true.1 hany with ⟨t, _, ht⟩
    simp at ht)]
  rw [variant_find_nil variants hvar cand]

theorem sysFold_nil (variants : List (Str × List Str))
    (hvar : ∀ e ∈ variants, ∀ v ∈ e.2, v ≠ []) (l : List Str) :
    l.foldl (entityFold variants tokenize [] [] true) ([], []) = ([], []) := by
  have : ∀ acc, l.foldl (entityFold variants tokenize [] [] true) acc = acc := by
    induction l with
    | nil => intro acc; rfl
    | cons c t ih =>
      intro acc
      rw [List.foldl_cons, entityFold_nil_id variants hvar acc c]
      exact ih acc
  exact this ([], [])

theorem lowerStr_nil_iff (f : Str) : lowerStr f = [] ↔ f = [] := by
  unfold lowerStr
  simp

theorem strHasSub_nil_true_iff (v : Str) : strHasSub v [] = true ↔ v = [] := by
  constructor
  · intro h
    by_contra hne
    rw [strHasSub_nil_eq_false v hne] at h
    cases h
  · rintro rfl
    rfl

/-- On the empty query the format loop can only match empty-string formats
(and appends no matched tokens). -/
theorem fmtFold_nil (st : SearchState)
    (hvar : ∀ e ∈ st.format_variants, ∀ v ∈ e.2, v ≠ []) (l : List Str) :
    ∀ acc : List Str × List Str,
      (∀ x ∈ (l.foldl (fmtStep st []) acc).1, x ∈ acc.1 ∨ x = [])
      ∧ (l.foldl (fmtStep st []) acc).2 = acc.2 := by
  induction l with
  | nil => intro acc; exact ⟨fun x hx => Or.inl hx, rfl⟩
  | cons f t ih =>
    intro acc
    rw [List.foldl_cons]
    have hstep : fmtStep st [] acc f = if f = [] then (acc.1 ++ [[]], acc.2) else acc := by
      unfold fmtStep
      by_cases hf : f = []
      · subst hf
        rw [if_pos (by decide), if_pos rfl]
        simp [lowerStr, splitWs]
      · rw [if_neg (by
            rw [strHasSub_nil_true_iff]
            rw [lowerStr_nil_iff]
            simpa using hf)]
        rw [variant_find_nil st.format_variants hvar f, if_neg hf]
    rw [hstep]
    by_cases hf : f = []
    · rw [if_pos hf]
      rcases ih (acc.1 ++ [[]], acc.2) with ⟨h1, h2⟩
      refine ⟨fun x hx => ?_, h2⟩
      rcases h1 x hx with hx' | hx'
      · rcases List.mem_append.1 hx' with h | h
        · exact Or.inl h
        · simp only [List.mem_singleton] at h
          exact Or.inr h
      · exact Or.inr hx'
    · rw [if_neg hf]
      exact ih acc

/-- Same for the transmission-method loop. -/
theorem tmFold_nil (st : SearchState)
    (hvar : ∀ e ∈ st.transmission_variants, ∀ v ∈ e.2, v ≠ []) (l : List Str) :
    ∀ acc : List Str × List Str,
      (∀ x ∈ (l.foldl (tmStep st []) acc).1, x ∈ acc.1 ∨ x = [])
      ∧ (l.foldl (tmStep st []) acc).2 = acc.2 := by
  induction l with
  | nil => intro acc; exact ⟨fun x hx => Or.inl hx, rfl⟩
  | cons f t ih =>
    intro acc
    rw [List.foldl_cons]
    have hstep : tmStep st [] acc f = if f = [] then (acc.1 ++ [[]], acc.2) else acc := by
      unfold tmStep
      by_cases hf : f = []
      · subst hf
        rw [if_pos (by decide), if_pos rfl]
        simp [lowerStr, splitWs]
      · rw [if_neg (by
            rw [strHasSub_nil_true_iff]
            rw [lowerStr_nil_iff]
            simpa using hf)]
        rw [variant_find_nil st.transmission_variants hvar f, if_neg hf]
    rw [hstep]
    by_cases hf : f = []
    · rw [if_pos hf]
      rcases ih (acc.1 ++ [[]], acc.2) with ⟨h1, h2⟩
      refine ⟨fun x hx => ?_, h2⟩
      rcases h1 x hx with hx' | hx'
      · rcases List.mem_append.1 hx' with h | h
        · exact Or.inl h
        · simp only [List.mem_singleton] at h
          exact Or.inr h
      · exact Or.inr hx'
    · rw [if_neg hf]
      exact ih acc

/-- Same for the interface loop (no variants there). -/
theorem ifcFold_nil (l : List Str) :
    ∀ acc : List Str × List Str,
      (∀ x ∈ (l.foldl (ifcStep []) acc).1, x ∈ acc.1 ∨ x = [])
      ∧ (l.foldl (ifcStep []) acc).2 = acc.2 := by
  induction l with
  | nil => intro acc; exact ⟨fun x hx => Or.inl hx, rfl⟩
  | cons f t ih =>
    intro acc
    rw [List.foldl_cons]
    have hstep : ifcStep [] acc f = if f = [] then (acc.1 ++ [[]], acc.2) else acc := by
      unfold ifcStep
      by_cases hf : f = []
      · subst hf
        rw [if_pos (by decide), if_pos rfl]
        simp [lowerStr, splitWs]
      · rw [if_neg (by
            rw [strHasSub_nil_true_iff]
            rw [lowerStr_nil_iff]
            simpa using hf), if_neg hf]
    rw [hstep]
    by_cases hf : f = []
    · rw [if_pos hf]
      rcases ih (acc.1 ++ [[]], acc.2) with ⟨h1, h2⟩
      refine ⟨fun x hx => ?_, h2⟩
      rcases h1 x hx with hx' | hx'
      · rcases List.mem_append.1 hx' with h | h
        · exact Or.inl h
        · simp only [List.mem_singleton] at h
          exact Or.inr h
      · exact Or.inr hx'
    · rw [if_neg hf]
      exact ih acc


theorem flatMap_nil_of {α β : Type} (l : List α) (f : α → List β)
    (h : ∀ x ∈ l, f x = []) : l.flatMap f = [] := by
  induction l with
  | nil => rfl
  | cons x t ih =>
    rw [List.flatMap_cons, h x (by simp), List.nil_append]
    exact ih (fun y hy => h y (List.mem_cons_of_mem x hy))

/-- Entity extraction on the empty query: no system matches, and every
matched format/method/interface is the empty string (possible only when the
catalog's value sets contain `""`). -/
theorem extract_entities_nil (ds : DataStore) :
    (extract_entities (initSearch ds) []).systems = []
    ∧ (∀ f ∈ (extract_entities (initSearch ds) []).formats, f = [])
    ∧ (∀ m ∈ (extract_entities (initSearch ds) []).transmission_methods, m = [])
    ∧ (∀ i ∈ (extract_entities (initSearch ds) []).interfaces, i = [])
    ∧ (extract_entities (initSearch ds) []).unknown_terms = [] := by
  have hq : lowerStr ([] : Str) = [] := rfl
  have hqs : dedupKeepFirst (tokenize []) = [] := rfl
  have hsys := sysFold_nil (initSearch ds).system_variants
    (initSearch_system_variants_ne ds) (initSearch ds).systems
  have hsys1 : (extract_entities (initSearch ds) []).systems
      = ((initSearch ds).systems.foldl
          (entityFold (initSearch ds).system_variants tokenize [] [] true) ([], [])).1 := rfl
  have hfmt1 : (extract_entities (initSearch ds) []).formats
      = ((initSearch ds).formats.foldl (fmtStep (initSearch ds) [])
          ([], ((initSearch ds).systems.foldl
            (entityFold (initSearch ds).system_variants tokenize [] [] true) ([], [])).2)).1 := rfl
  have htm1 : (extract_entities (initSearch ds) []).transmission_methods
      = ((initSearch ds).transmission_methods.foldl (tmStep (initSearch ds) [])
          ([], ((initSearch ds).formats.foldl (fmtStep (initSearch ds) [])
            ([], ((initSearch ds).systems.foldl
              (entityFold (initSearch ds).system_variants tokenize [] [] true) ([], [])).2)).2)).1 := rfl
  have hifc1 : (extract_entities (initSearch ds) []).interfaces
      = ((initSearch ds).interfaces.foldl (ifcStep [])
          ([], ((initSearch ds).transmission_methods.foldl (tmStep (initSearch ds) [])
            ([], ((initSearch ds).formats.foldl (fmtStep (initSearch ds) [])
              ([], ((initSearch ds).systems.foldl
                (entityFold (initSearch ds).system_variants tokenize [] [] true) ([], [])).2)).2)).2)).1 := rfl
  refine ⟨?_, ?_, ?_, ?_, rfl⟩
  · rw [hsys1, hsys]
  · rw [hfmt1]
    intro f hf
    rcases (fmtFold_nil (initSearch ds) (initSearch_format_variants_ne ds)
        (initSearch ds).formats _).1 f hf with h | h
    · cases h
    · exact h
  · rw [htm1]
    intro m hm
    rcases (tmFold_nil (initSearch ds) (initSearch_transmission_variants_ne ds)
        (initSearch ds).transmission_methods _).1 m hm with h | h
    · cases h
    · exact h
  · rw [hifc1]
    intro i hi
    rcases (ifcFold_nil (initSearch ds).interfaces _).1 i hi with h | h
    · cases h
    · exact h


theorem finalScores_nil (ds : DataStore) (fid : Str) :
    finalScores (initSearch ds) [] fid = 0 := by
  rcases extract_entities_nil ds with ⟨hs, hf, hm, hi, hu⟩
  rcases initSearch_keysNe ds with ⟨ksys, kfmt, ktr, kif⟩
  have hec : entity_contribs (initSearch ds) (extract_entities (initSearch ds) []) = [] := by
    unfold entity_contribs
    rw [hs,
      flatMap_nil_of ((extract_entities (initSearch ds) []).formats) _ (fun f hfm => by
        rw [hf f hfm, alookup_nil_eq_none _ kfmt]
        rfl),
      flatMap_nil_of ((extract_entities (initSearch ds) []).transmission_methods) _
        (fun m hmm => by
          rw [hm m hmm, alookup_nil_eq_none _ ktr]
          rfl),
      flatMap_nil_of ((extract_entities (initSearch ds) []).interfaces) _ (fun i him => by
        rw [hi i him, alookup_nil_eq_none _ kif]
        rfl)]
    rfl
  have hents : (entsAfterSub (initSearch ds) []).unknown_terms = [] := by
    unfold entsAfterSub
    rw [if_pos hu]
    rfl
  have h1 : search_with_entities (initSearch ds) (extract_entities (initSearch ds) [])
      (fun _ => 0) = (fun _ => (0 : ℚ)) := by
    unfold search_with_entities
    rw [hec]
    rfl
  have h2 : fuzzy_term_matching (initSearch ds)
      (entsAfterSub (initSearch ds) []).unknown_terms (fun _ => (0 : ℚ))
      = (fun _ => (0 : ℚ)) := by
    unfold fuzzy_term_matching fuzzy_contribs
    rw [hents]
    rfl
  show pattern_based_search (initSearch ds) []
      (fulltext_search (initSearch ds) (tokenize [])
        (fuzzy_term_matching (initSearch ds) (entsAfterSub (initSearch ds) []).unknown_terms
          (search_with_entities (initSearch ds) (extract_entities (initSearch ds) [])
            (fun _ => 0)))) fid = 0
  rw [h1, h2]
  have h3 : fulltext_search (initSearch ds) (tokenize []) (fun _ => (0 : ℚ))
      = (fun _ => (0 : ℚ)) := rfl
  rw [h3]
  show bumpMany (fun _ => (0 : ℚ)) (pattern_contribs (initSearch ds) []) fid = 0
  have h4 : pattern_contribs (initSearch ds) [] = [] := rfl
  rw [h4]
  rfl

/-- C7, confirmed.  `search` is a total function of the query (the model has
no failure path), and on the empty query every record's final score is zero
for EVERY catalog, so the result carries empty direct results, empty related
flows, and the nothing-found sentence. -/
theorem C7_empty_query (ds : DataStore) (n : Nat) :
    (search (initSearch ds) [] n).2.direct_results = []
    ∧ (search (initSearch ds) [] n).2.related_flows = []
    ∧ (search (initSearch ds) [] n).2.natural_response
        = "Ich konnte keine Datenflüsse finden, die zu Ihrer Anfrage ".data
            ++ [sq] ++ [sq] ++ " passen.".data := by
  have hlq : lowerStr ([] : Str) = [] := rfl
  have hscored : scoredList (initSearch ds) [] = [] := by
    unfold scoredList
    apply List.filter_eq_nil_iff.2
    intro p hp
    rcases List.mem_map.1 hp with ⟨e, _, rfl⟩
    simp [finalScores_nil ds e.1]
  have hranked : rankedList (initSearch ds) [] = [] := by
    unfold rankedList
    rw [hscored]
    rfl
  have hdirect : directOf (initSearch ds) [] n = [] := by
    unfold directOf topOf
    rw [hranked]
    simp
  have hnfi : newFlowIndex (initSearch ds) [] n = (initSearch ds).flow_index := by
    unfold newFlowIndex topOf
    rw [hranked]
    simp
  have hrel : relatedAllOf (initSearch ds) [] n = [] := by
    unfold relatedAllOf
    rw [hdirect, hnfi]
    apply List.filter_eq_nil_iff.2
    intro fl hfl
    simp [matchingSystemsOf, dedupKeepFirst, dedupAux]
  refine ⟨?_, ?_, ?_⟩
  · show directOf (initSearch ds) (lowerStr []) n = []
    rw [hlq]
    exact hdirect
  · show (relatedAllOf (initSearch ds) (lowerStr []) n).take 10 = []
    rw [hlq, hrel]
    rfl
  · show generate_response (lowerStr []) (directOf (initSearch ds) (lowerStr []) n)
      (relatedAllOf (initSearch ds) (lowerStr []) n)
      (entsAfterSub (initSearch ds) (lowerStr [])) = _
    rw [hlq, hdirect, hrel]
    unfold generate_response
    rw [if_pos ⟨rfl, rfl⟩]
    simp


/-! ## C9: queries equal to a record name -/

theorem dictUpsert_mem {β : Type} (m : List (Str × β)) (k : Str) (v : β) :
    ∀ e ∈ dictUpsert m k v, e = (k, v) ∨ e ∈ m := by
  induction m with
  | nil =>
    intro e he
    unfold dictUpsert at he
    simp only [List.mem_singleton] at he
    exact Or.inl he
  | cons e0 rest ih =>
    rcases e0 with ⟨k0, v0⟩
    intro e he
    unfold dictUpsert at he
    by_cases hk : k0 = k
    · rw [if_pos hk] at he
      rcases List.mem_cons.1 he with rfl | he'
      · exact Or.inl rfl
      · exact Or.inr (List.mem_cons_of_mem _ he')
    · rw [if_neg hk] at he
      rcases List.mem_cons.1 he with rfl | he'
      · exact Or.inr (by simp)
      · rcases ih e he' with h | h
        · exact Or.inl h
        · exact Or.inr (List.mem_cons_of_mem _ h)

theorem dictUpsert_nodupKeys {β : Type} (m : List (Str × β)) (k : Str) (v : β)
    (h : (m.map Prod.fst).Nodup) : ((dictUpsert m k v).map Prod.fst).Nodup := by
  induction m with
  | nil => exact List.nodup_singleton k
  | cons e0 rest ih =>
    rcases e0 with ⟨k0, v0⟩
    unfold dictUpsert
    by_cases hk : k0 = k
    · rw [if_pos hk]
      subst hk
      exact h
    · rw [if_neg hk]
      simp only [List.map_cons, List.nodup_cons] at h ⊢
      refine ⟨fun hmem => ?_, ih h.2⟩
      rcases List.mem_map.1 hmem with ⟨e, he, heq⟩
      rcases dictUpsert_mem rest k v e he with rfl | he'
      · exact hk heq.symm
      · exact h.1 (heq ▸ List.mem_map_of_mem Prod.fst he')

theorem alookup_of_mem_nodup {β : Type} (m : List (Str × β)) (k : Str) (v : β)
    (hnd : (m.map Prod.fst).Nodup) (hmem : (k, v) ∈ m) : alookup m k = some v := by
  induction m with
  | nil => cases hmem
  | cons e0 rest ih =>
    rcases e0 with ⟨k0, v0⟩
    unfold alookup
    simp only [List.map_cons, List.nodup_cons] at hnd
    rcases List.mem_cons.1 hmem with heq | hmem'
    · cases heq
      rw [if_pos rfl]
    · rw [if_neg (fun hk => hnd.1 (by
        rw [hk]
        exact List.mem_map_of_mem Prod.fst hmem'))]
      exact ih hnd.2 hmem'

theorem initSearch_flow_index_facts (ds : DataStore) :
    (((initSearch ds).flow_index).map Prod.fst).Nodup
    ∧ ∀ e ∈ (initSearch ds).flow_index, e.1 = e.2.id ∧ e.2 ∈ ds.data_flows := by
  have hproj : ∀ st f, (indexFlow st f).flow_index = dictUpsert st.flow_index f.id f :=
    fun st f => rfl
  have hfold : ∀ (l : List Flow) (st : SearchState),
      (∀ f ∈ l, f ∈ ds.data_flows) →
      ((st.flow_index.map Prod.fst).Nodup
        ∧ ∀ e ∈ st.flow_index, e.1 = e.2.id ∧ e.2 ∈ ds.data_flows) →
      (((l.foldl indexFlow st).flow_index.map Prod.fst).Nodup
        ∧ ∀ e ∈ (l.foldl indexFlow st).flow_index, e.1 = e.2.id ∧ e.2 ∈ ds.data_flows) := by
    intro l
    induction l with
    | nil => intro st _ h; exact h
    | cons f t ih =>
      intro st hl h
      rw [List.foldl_cons]
      refine ih _ (fun g hg => hl g (List.mem_cons_of_mem f hg)) ⟨?_, ?_⟩
      · rw [hproj]
        exact dictUpsert_nodupKeys _ _ _ h.1
      · rw [hproj]
        intro e he
        rcases dictUpsert_mem _ _ _ e he with rfl | he'
        · exact ⟨rfl, hl f (by simp)⟩
        · exact h.2 e he'
  have h0 : ((([] : List (Str × Flow)).map Prod.fst).Nodup
      ∧ ∀ e ∈ ([] : List (Str × Flow)), e.1 = e.2.id ∧ e.2 ∈ ds.data_flows) :=
    ⟨List.nodup_nil, fun e he => absurd he (List.not_mem_nil e)⟩
  exact hfold ds.data_flows _ (fun f hf => hf) h0

theorem mem_alookup_multiAdd_self (m : List (Str × List Str)) (k v : Str) :
    v ∈ (alookup (multiAdd m k v) k).getD [] := by
  induction m with
  | nil =>
    unfold multiAdd alookup
    rw [if_pos rfl]
    simp
  | cons e0 rest ih =>
    rcases e0 with ⟨k0, vs⟩
    unfold multiAdd
    by_cases hk : k0 = k
    · rw [if_pos hk]
      unfold alookup
      rw [if_pos rfl]
      simp
    · rw [if_neg hk]
      unfold alookup
      rw [if_neg hk]
      exact ih

theorem mem_alookup_multiAdd_mono (m : List (Str × List Str)) (k0 v0 k x : Str)
    (h : x ∈ (alookup m k).getD []) : x ∈ (alookup (multiAdd m k0 v0) k).getD [] := by
  induction m with
  | nil =>
    simp [alookup] at h
  | cons e0 rest ih =>
    rcases e0 with ⟨k1, vs⟩
    unfold multiAdd
    by_cases hk1 : k1 = k0
    · rw [if_pos hk1]
      unfold alookup at h ⊢
      by_cases hk : k1 = k
      · rw [if_pos hk] at h
        rw [if_pos (hk1 ▸ hk)]
        simp only [Option.getD_some] at h ⊢
        exact List.mem_append.2 (Or.inl h)
      · rw [if_neg hk] at h
        rw [if_neg (hk1 ▸ hk)]
        exact h
    · rw [if_neg hk1]
      unfold alookup at h ⊢
      by_cases hk : k1 = k
      · rw [if_pos hk] at h ⊢
        exact h
      · rw [if_neg hk] at h ⊢
        exact ih h


theorem tokenize_nil_eq : tokenize [] = [] := by
  unfold tokenize
  simp

theorem mem_alookup_tokenFold_mono (toks : List Str) (ix : List (Str × List Str))
    (k v x : Str) (h : x ∈ (alookup ix k).getD []) :
    x ∈ (alookup (toks.foldl (fun ix t => multiAdd ix t v) ix) k).getD [] := by
  induction toks generalizing ix with
  | nil => exact h
  | cons t ts ih =>
    rw [List.foldl_cons]
    exact ih _ (mem_alookup_multiAdd_mono ix t v k x h)

theorem mem_alookup_tokenFold_self (toks : List Str) (ix : List (Str × List Str))
    (tok v : Str) (h : tok ∈ toks) :
    v ∈ (alookup (toks.foldl (fun ix t => multiAdd ix t v) ix) tok).getD [] := by
  induction toks generalizing ix with
  | nil => cases h
  | cons t ts ih =>
    rw [List.foldl_cons]
    rcases List.mem_cons.1 h with rfl | h'
    · exact mem_alookup_tokenFold_mono ts _ tok v v (mem_alookup_multiAdd_self ix tok v)
    · exact ih _ h'

theorem indexFlow_name_index (st : SearchState) (f : Flow) :
    (indexFlow st f).name_index
      = if f.name ≠ [] then
          (tokenize f.name).foldl (fun ix tok => multiAdd ix tok f.id) st.name_index
        else st.name_index := rfl

theorem mem_name_index_indexFlow_mono (st : SearchState) (f : Flow) (k x : Str)
    (h : x ∈ (alookup st.name_index k).getD []) :
    x ∈ (alookup (indexFlow st f).name_index k).getD [] := by
  rw [indexFlow_name_index]
  split
  · exact mem_alookup_tokenFold_mono _ _ _ _ _ h
  · exact h

theorem mem_name_index_foldl_mono (l : List Flow) (st : SearchState) (k x : Str)
    (h : x ∈ (alookup st.name_index k).getD []) :
    x ∈ (alookup (l.foldl indexFlow st).name_index k).getD [] := by
  induction l generalizing st with
  | nil => exact h
  | cons f t ih =>
    rw [List.foldl_cons]
    exact ih _ (mem_name_index_indexFlow_mono st f k x h)

theorem mem_name_index_foldl_self (l : List Flow) (st : SearchState) (fl : Flow)
    (tok : Str) (hfl : fl ∈ l) (htok : tok ∈ tokenize fl.name) :
    fl.id ∈ (alookup (l.foldl indexFlow st).name_index tok).getD [] := by
  induction l generalizing st with
  | nil => cases hfl
  | cons f t ih =>
    rw [List.foldl_cons]
    rcases List.mem_cons.1 hfl with rfl | h'
    · apply mem_name_index_foldl_mono t _ tok fl.id
      rw [indexFlow_name_index]
      have hname : fl.name ≠ [] := by
        intro hnil
        rw [hnil, tokenize_nil_eq] at htok
        cases htok
      rw [if_pos hname]
      exact mem_alookup_tokenFold_self _ _ _ _ htok
    · exact ih _ h'

theorem initSearch_name_mem (ds : DataStore) (fl : Flow) (tok : Str)
    (hfl : fl ∈ ds.data_flows) (htok : tok ∈ tokenize fl.name) :
    fl.id ∈ (alookup (initSearch ds).name_index tok).getD [] :=
  mem_name_index_foldl_self ds.data_flows _ fl tok hfl htok

theorem mem_fulltext_contribs_name (st : SearchState) (toks : List Str) (tok fid : Str)
    (htok : tok ∈ toks) (hfid : fid ∈ (alookup st.name_index tok).getD []) :
    (fid, (1.0 : ℚ)) ∈ fulltext_contribs st toks := by
  unfold fulltext_contribs
  refine List.mem_append.2 (Or.inl ?_)
  rw [List.mem_flatMap]
  exact ⟨tok, htok, List.mem_map.2 ⟨fid, hfid, rfl⟩⟩

theorem finalScores_ge_one_of_name_tok (st : SearchState) (q fid tok : Str)
    (htok : tok ∈ tokenize q) (hfid : fid ∈ (alookup st.name_index tok).getD []) :
    1 ≤ finalScores st q fid := by
  have hmem := mem_fulltext_contribs_name st (tokenize q) tok fid htok hfid
  have hft : (1 : ℚ) ≤ contribSum (fulltext_contribs st (tokenize q)) fid := by
    have h := le_contribSum_of_mem _ fid (1.0 : ℚ) hmem
      (fulltext_contribs_nonneg st (tokenize q))
    have h10 : ((1.0 : ℚ)) = 1 := by norm_num
    rw [h10] at h
    exact h
  show (1 : ℚ) ≤ pattern_based_search st q
    (fulltext_search st (tokenize q)
      (fuzzy_term_matching st (entsAfterSub st q).unknown_terms
        (search_with_entities st (extract_entities st q) (fun _ => 0)))) fid
  have h1 : (0 : ℚ) ≤ search_with_entities st (extract_entities st q) (fun _ => 0) fid :=
    bumpMany_mono _ _ _ (entity_contribs_nonneg st (extract_entities st q))
  have h2 : search_with_entities st (extract_entities st q) (fun _ => 0) fid
      ≤ fuzzy_term_matching st (entsAfterSub st q).unknown_terms
          (search_with_entities st (extract_entities st q) (fun _ => 0)) fid :=
    bumpMany_mono _ _ _ (fuzzy_contribs_nonneg st (entsAfterSub st q).unknown_terms)
  have h3 : fuzzy_term_matching st (entsAfterSub st q).unknown_terms
        (search_with_entities st (extract_entities st q) (fun _ => 0)) fid
        + contribSum (fulltext_contribs st (tokenize q)) fid
      = fulltext_search st (tokenize q)
          (fuzzy_term_matching st (entsAfterSub st q).unknown_terms
            (search_with_entities st (extract_entities st q) (fun _ => 0))) fid := by
    unfold fulltext_search
    rw [bumpMany_apply]
  have h4 : fulltext_search st (tokenize q)
        (fuzzy_term_matching st (entsAfterSub st q).unknown_terms
          (search_with_entities st (extract_entities st q) (fun _ => 0))) fid
      ≤ pattern_based_search st q
        (fulltext_search st (tokenize q)
          (fuzzy_term_matching st (entsAfterSub st q).unknown_terms
            (search_with_entities st (extract_entities st q) (fun _ => 0)))) fid :=
    bumpMany_mono _ _ _ (pattern_contribs_nonneg st q)
  linarith

/-- C9, amended: the claim as stated fails (see `C9_short_name_not_found`
below: a record whose name tokenizes to nothing is invisible to the
full-text pass), but it holds whenever the record's name yields at least one
token.  If some `(fid, fl)` entry of a freshly built searcher's flow index
has a query tokenizing exactly like its name, and that name yields at least
one token, then `fl`'s final score is at least `1.0` (the full-text pass
awards `+1.0` per name-index entry and every other contribution is
non-negative), and whenever the number of positively-scored records fits
into `max_results`, `fl` — annotated with its rounded score — appears in
`direct_results`. -/
theorem C9_amended_name_query (ds : DataStore) (qL fid : Str) (fl : Flow) (n : Nat)
    (hmem : (fid, fl) ∈ (initSearch ds).flow_index)
    (hq : tokenize qL = tokenize fl.name)
    (hname : tokenize fl.name ≠ [])
    (hlen : (scoredList (initSearch ds) qL).length ≤ n) :
    1 ≤ finalScores (initSearch ds) qL fid
    ∧ ∃ sc : ℚ, { fl with search_score := some (roundTo2 sc) }
        ∈ directOf (initSearch ds) qL n := by
  obtain ⟨hnd, hfacts⟩ := initSearch_flow_index_facts ds
  obtain ⟨hfid0, hfl⟩ := hfacts (fid, fl) hmem
  have hfid : fid = fl.id := hfid0
  subst hfid
  obtain ⟨tok, htok⟩ := List.exists_mem_of_ne_nil _ hname
  have htokq : tok ∈ tokenize qL := by rw [hq]; exact htok
  have hix : fl.id ∈ (alookup (initSearch ds).name_index tok).getD [] :=
    initSearch_name_mem ds fl tok hfl htok
  have hscore : 1 ≤ finalScores (initSearch ds) qL fl.id :=
    finalScores_ge_one_of_name_tok (initSearch ds) qL fl.id tok htokq hix
  refine ⟨hscore, finalScores (initSearch ds) qL fl.id, ?_⟩
  have hpos : 0 < finalScores (initSearch ds) qL fl.id := lt_of_lt_of_le one_pos hscore
  have hsc : (fl.id, finalScores (initSearch ds) qL fl.id) ∈ scoredList (initSearch ds) qL := by
    unfold scoredList
    refine List.mem_filter.2 ⟨List.mem_map.2 ⟨(fl.id, fl), hmem, rfl⟩, by simpa using hpos⟩
  have hrank : (fl.id, finalScores (initSearch ds) qL fl.id) ∈ rankedList (initSearch ds) qL :=
    (rankedList_perm (initSearch ds) qL).mem_iff.2 hsc
  have hlen2 : (rankedList (initSearch ds) qL).length ≤ n := by
    rw [(rankedList_perm (initSearch ds) qL).length_eq]
    exact hlen
  have htop : (fl.id, finalScores (initSearch ds) qL fl.id) ∈ topOf (initSearch ds) qL n := by
    show (fl.id, finalScores (initSearch ds) qL fl.id) ∈ (rankedList (initSearch ds) qL).take n
    rw [List.take_of_length_le hlen2]
    exact hrank
  have halk : alookup (initSearch ds).flow_index fl.id = some fl :=
    alookup_of_mem_nodup _ fl.id fl hnd hmem
  show { fl with search_score := some (roundTo2 (finalScores (initSearch ds) qL fl.id)) }
    ∈ (topOf (initSearch ds) qL n).filterMap (annotFlow (initSearch ds))
  refine List.mem_filterMap.2 ⟨(fl.id, finalScores (initSearch ds) qL fl.id), htop, ?_⟩
  unfold annotFlow
  rw [show alookup (initSearch ds).flow_index
      (fl.id, finalScores (initSearch ds) qL fl.id).1 = some fl from halk]
  rfl

/-- Witness for `C9_amended_name_query`: in catalog `c9NameDS` the record
`n2` is named "alpha test"; the query "Alpha, Test!" (equal up to case and
punctuation) tokenizes identically, scores at least `1.0`, and the record
appears in `direct_results`. -/
theorem C9_amended_name_query_witness :
    (("n2".data, c9NameFlow) ∈ (initSearch c9NameDS).flow_index
      ∧ tokenize "Alpha, Test!".data = tokenize c9NameFlow.name
      ∧ tokenize c9NameFlow.name ≠ []
      ∧ (scoredList (initSearch c9NameDS) "Alpha, Test!".data).length ≤ 20)
    ∧ (1 ≤ finalScores (initSearch c9NameDS) "Alpha, Test!".data "n2".data
      ∧ ∃ sc : ℚ, { c9NameFlow with search_score := some (roundTo2 sc) }
          ∈ directOf (initSearch c9NameDS) "Alpha, Test!".data 20) :=
  ⟨⟨by with_unfolding_all decide, by with_unfolding_all decide,
     by with_unfolding_all decide, by with_unfolding_all decide⟩,
   C9_amended_name_query c9NameDS "Alpha, Test!".data "n2".data c9NameFlow 20
     (by with_unfolding_all decide) (by with_unfolding_all decide)
     (by with_unfolding_all decide) (by with_unfolding_all decide)⟩

/-- C9, counterexample to the claim as stated: record `n1` of catalog `c9DS`
is named "ab".  The query "ab" equals that name exactly, yet the tokenizer
drops all tokens of length ≤ 2, so the record contributes nothing to any
index the scorer consults for it, its final score is `0`, and
`direct_results` is empty — the record is NOT placed in `direct_results`
with score ≥ 1.0. -/
theorem C9_short_name_not_found :
    c9Flow ∈ c9DS.data_flows
    ∧ lowerStr "ab".data = lowerStr c9Flow.name
    ∧ tokenize c9Flow.name = []
    ∧ finalScores c9State "ab".data "n1".data = 0
    ∧ directOf c9State "ab".data 20 = []
    ∧ (search c9State "ab".data 20).2.direct_results = [] := by
  with_unfolding_all decide

end DFS
